import Mathlib

/-!
Verification of the filesystem core of the `organized` repository.

The development shallowly embeds the Python sources:

* `src/organized/file_system.py` — the `FileSystem` class: path
  validation, the reference-counted registry of open files, atomic
  writes with three-way merging, the change-detector handlers and the
  committed (`@`-prefixed) namespace backed by git HEAD;
* `src/organized/files.py` — the WebSocket session layer: per-connection
  handle tables and fan-out of `file_updated` events.

Python dictionaries holding `File` entries are embedded as functions
`String → Option File`; the working tree is a function from disk keys to
content/mtime pairs; the git object store at the current HEAD is a
function from repository paths to optional blob contents.  The external
`diff_match_patch` library and the possibility of I/O failure inside the
atomic writer are parameters of the model (`WriteEnv`).
-/

/-! ### Path handling: `pathlib.PurePosixPath` and `os.path.normpath`

`FileSystem._normalize_and_validate_path` builds `Path(filename)` and
compares its string form with `Path(os.path.normpath(filename))`.  We
embed the relevant POSIX behaviour of both libraries: `Path` drops empty
components and single-dot components when parsing, keeps `..`, and
renders a pathless relative string as `.`; `normpath` additionally
resolves `..` textually.
-/

/-- Split a string at every `/` character, keeping empty components,
exactly like Python's `str.split` with separator `/`. -/
def splitSlashCh : List Char → List (List Char)
  | [] => [[]]
  | c :: cs =>
    let r := splitSlashCh cs
    if c = '/' then [] :: r
    else
      match r with
      | g :: gs => (c :: g) :: gs
      | [] => [[c]]

/-- String-level wrapper for `splitSlashCh`. -/
def splitOnSlash (s : String) : List String :=
  (splitSlashCh s.data).map (fun l => String.mk l)

/-- Number of leading `/` characters of a string. -/
def leadSlashes : List Char → Nat
  | '/' :: cs => leadSlashes cs + 1
  | _ => 0

/-- The root of a POSIX path as computed by `pathlib`: exactly two
leading slashes give the special root `//`, any other positive number
gives `/`, none gives the empty string. -/
def rootOf (s : String) : String :=
  let n := leadSlashes s.data
  if n = 0 then "" else if n = 2 then "//" else "/"

/-- The components of a path as parsed by `pathlib.PurePosixPath`:
empty components and single-dot components are dropped. -/
def pathComps (s : String) : List String :=
  (splitOnSlash s).filter (fun c => !(c == "" || c == "."))

/-- Join components with `/` separators. -/
def joinSlash : List String → String
  | [] => ""
  | [x] => x
  | x :: xs => x ++ "/" ++ joinSlash xs

/-- The rendering `str(Path(s))` of `pathlib.PurePosixPath`. -/
def pathStr (s : String) : String :=
  let r := rootOf s
  let cs := pathComps s
  if r = "" then (if cs.isEmpty then "." else joinSlash cs)
  else r ++ joinSlash cs

/-- One step of the `os.path.normpath` component loop (CPython
`posixpath.normpath`): skip empty and `.` components, keep `..` at the
start of a relative path or after another kept `..`, otherwise pop. -/
def normpathStep (ini : Nat) (acc : List String) (comp : String) : List String :=
  if comp == "" || comp == "." then acc
  else if comp != ".." || (ini == 0 && acc.isEmpty) ||
      (!acc.isEmpty && acc.getLast? == some "..") then acc ++ [comp]
  else if !acc.isEmpty then acc.dropLast
  else acc

/-- Embedding of `os.path.normpath` for POSIX paths. -/
def normpath (s : String) : String :=
  if s = "" then "."
  else
    let slashes := leadSlashes s.data
    let ini : Nat := if slashes = 0 then 0 else if slashes = 2 then 2 else 1
    let newComps := (splitOnSlash s).foldl (normpathStep ini) []
    let joined := String.mk (List.replicate ini '/') ++ joinSlash newComps
    if joined = "" then "." else joined

/-- Error cases of `FileSystem._normalize_and_validate_path`; all are
raised as `ValueError` (the spec's `InvalidPath`). -/
inductive PathError where
  | notNormalized
  | dotComponents
  | absolutePath
deriving Repr, DecidableEq

/-- Embedding of `FileSystem._normalize_and_validate_path`.  On success
it returns the parsed component list; the absolute path handed back by
the Python code is the repository root joined with exactly these
components.  Note that the components check `".." in path.parts or "."
in path.parts` is translated literally: since `pathlib` never keeps a
`.` component, the second half of that disjunction is dead code, in the
embedding exactly as in the source. -/
def normalize_and_validate_path (filename : String) :
    Except PathError (List String) :=
  if pathStr filename ≠ pathStr (normpath filename) then
    .error .notNormalized
  else if (pathComps filename).contains ".." || (pathComps filename).contains "." then
    .error .dotComponents
  else if rootOf filename ≠ "" then
    .error .absolutePath
  else
    .ok (pathComps filename)

/-- sanity check of the embedding against CPython behaviour -/
example : pathStr "a/./b" = "a/b" := rfl
example : pathStr "a//b" = "a/b" := rfl
example : pathStr "" = "." := rfl
example : pathStr "a/../b" = "a/../b" := rfl
example : normpath "a/../b" = "b" := rfl
example : normpath "../a" = "../a" := rfl
example : normpath "//a" = "//a" := rfl
example : normpath "a/./b" = "a/b" := rfl

/-- C1.  The claim states that any input containing a `.` segment
(including `a/./b`), any redundant separator and any trailing slash is
rejected, and that every accepted input yields a path strictly under
the repository root.  The code does not do this: `pathlib` collapses
`.` segments, duplicate separators and trailing slashes while parsing,
before the normalisation comparison runs, and `.` never occurs in
`Path.parts`, so `a/./b`, `a//b`, `a/` are accepted (as `a/b`, `a/b`,
`a`), and `.` and the empty string are accepted yielding the repository
root itself.  Inputs with `..` segments and absolute inputs are
rejected as claimed.  This theorem evaluates the embedded validator at
the failing inputs. -/
theorem C1_validator_accepts_unnormalized_inputs :
    normalize_and_validate_path "a/./b" = .ok ["a", "b"]
    ∧ normalize_and_validate_path "a//b" = .ok ["a", "b"]
    ∧ normalize_and_validate_path "a/" = .ok ["a"]
    ∧ normalize_and_validate_path "." = .ok []
    ∧ normalize_and_validate_path "" = .ok []
    ∧ normalize_and_validate_path "../etc/passwd" = .error .dotComponents
    ∧ normalize_and_validate_path "subdir/../file.txt" = .error .notNormalized
    ∧ normalize_and_validate_path "/etc/passwd" = .error .absolutePath :=
  ⟨rfl, rfl, rfl, rfl, rfl, rfl, rfl, rfl⟩

/-! ### The file registry

`FileSystem.files` is a `Dict[str, File]`; we embed it as a function
from filenames to optional `File` records.  `ref_count` is a Python
`int`, embedded as `Int` so that no non-negativity is baked into the
data type: the invariants about it are proved, not assumed. -/

/-- Embedding of the `File` dataclass of `file_system.py`. -/
structure File where
  content : String
  ref_count : Int
  mtime : Nat
deriving Repr, DecidableEq

/-- The registry `FileSystem.files`. -/
def Reg : Type := String → Option File

/-- Keys of the working tree.  The atomic writer's `tempfile.mkstemp`
sibling (prefix `.<name>_`, suffix `.tmp`) is kept distinguishable from
every client-addressable path. -/
inductive DiskKey where
  | real (parts : List String)
  | tmp (parts : List String)
deriving Repr, DecidableEq

/-- The working tree: content and stat mtime per existing file. -/
def Disk : Type := DiskKey → Option (String × Nat)

/-- The git object store at the current HEAD: blob content per path,
`none` when the path is absent in the HEAD commit
(`git cat-file blob HEAD:path` failing with does-not-exist). -/
def GitF : Type := String → Option String

/-- Pointwise update of the registry (dict assignment). -/
def regSet (reg : Reg) (k : String) (f : File) : Reg :=
  fun k2 => if k2 = k then some f else reg k2

/-- Pointwise removal from the registry (dict `del`). -/
def regErase (reg : Reg) (k : String) : Reg :=
  fun k2 => if k2 = k then none else reg k2

/-- Pointwise update of the working tree. -/
def diskSet (d : Disk) (k : DiskKey) (v : String × Nat) : Disk :=
  fun k2 => if k2 = k then some v else d k2

/-- Pointwise removal from the working tree (`os.unlink`, or the
source half of `os.rename`). -/
def diskErase (d : Disk) (k : DiskKey) : Disk :=
  fun k2 => if k2 = k then none else d k2

/-- Embedding of `FileSystem._is_committed_file_path`: a filename is in
the committed namespace when it starts with the sigil `@`. -/
def is_committed_file_path (fn : String) : Bool :=
  match fn.data with
  | '@' :: _ => true
  | _ => false

/-- Embedding of `FileSystem._extract_git_file_path`: drop the sigil. -/
def extract_git_file_path (fn : String) : String :=
  match fn.data with
  | '@' :: rest => String.mk rest
  | l => String.mk l

/-- Error cases of `FileSystem.open_file`: path rejection
(`ValueError`), a working-tree file absent on disk
(`FileNotFoundError`), a committed file absent in HEAD
(`FileNotFoundError` raised by `_read_file_from_git`). -/
inductive OpenError where
  | invalidPath (e : PathError)
  | notFound
  | gitNotFound
deriving Repr, DecidableEq

/-- Embedding of `FileSystem.open_file`.  Committed names are validated
after stripping the sigil and read from git on first open (`mtime = 0`);
working names are validated as given and read from disk on first open,
the stat mtime being captured with the content.  A name that is already
in the registry only has its reference count incremented; the cached
content is returned in every successful case. -/
def open_file (git : GitF) (disk : Disk) (reg : Reg) (fn : String) :
    Except OpenError (Reg × String) :=
  if is_committed_file_path fn then
    match normalize_and_validate_path (extract_git_file_path fn) with
    | .error e => .error (.invalidPath e)
    | .ok _ =>
      match reg fn with
      | none =>
        match git (extract_git_file_path fn) with
        | none => .error .gitNotFound
        | some content => .ok (regSet reg fn ⟨content, 1, 0⟩, content)
      | some f => .ok (regSet reg fn { f with ref_count := f.ref_count + 1 }, f.content)
  else
    match normalize_and_validate_path fn with
    | .error e => .error (.invalidPath e)
    | .ok parts =>
      match reg fn with
      | none =>
        match disk (.real parts) with
        | none => .error .notFound
        | some (content, m) => .ok (regSet reg fn ⟨content, 1, m⟩, content)
      | some f => .ok (regSet reg fn { f with ref_count := f.ref_count + 1 }, f.content)

/-- Embedding of `FileSystem.close_file`: decrement the count of a
tracked file and delete the entry when the count drops to zero or
below; closing an untracked name is a no-op. -/
def close_file (reg : Reg) (fn : String) : Reg :=
  match reg fn with
  | none => reg
  | some f =>
    if f.ref_count - 1 ≤ 0 then regErase reg fn
    else regSet reg fn { f with ref_count := f.ref_count - 1 }

/-- Embedding of `FileSystem._merge_content`, parametric in the
external `diff_match_patch` library: `dmp last new current` stands for
building patches from `last` to `new` and applying them to `current`,
returning `none` when the library raises; in that case the source
falls back to the current content unchanged. -/
def merge_content (dmp : String → String → String → Option String)
    (current last new : String) : String :=
  match dmp last new current with
  | some merged => merged
  | none => current

/-- Environment of one `write_file` call: whether the underlying atomic
write succeeds, the mtime `os.stat` reports for the temporary file, and
the behaviour of the `diff_match_patch` library. -/
structure WriteEnv where
  ok : Bool
  newMtime : Nat
  dmp : String → String → String → Option String

/-- Error cases of `FileSystem.write_file`: path rejection and the
`OSError` of the atomic writer (the spec's `IoError`).  The error value
carries the registry and the working tree after the failure. -/
inductive WriteError where
  | invalidPath (e : PathError)
  | ioError
deriving Repr, DecidableEq

/-- In-place content/mtime update of an open entry
(`self.files[filename].content = new_content` and so on). -/
def regUpdateCM (reg : Reg) (fn content : String) (m : Nat) : Reg :=
  fun k => if k = fn then (reg fn).map (fun f => { f with content := content, mtime := m })
           else reg k

/-- Embedding of `FileSystem.write_file` composed with
`_write_file_atomic`.  The flow follows the source: validate, open the
file catching only not-found (`opened` records whether the open
succeeded), choose the new content directly when `last` equals the
current content and by three-way merge otherwise, write atomically
(temporary sibling first, then rename over the target — on failure the
temporary is unlinked and the error propagates after the `finally`
close), update the cached content and mtime when the file was opened,
and close it again. -/
def write_file (git : GitF) (disk : Disk) (reg : Reg) (env : WriteEnv)
    (fn last content : String) :
    Except (WriteError × Reg × Disk) (Reg × Disk × String) :=
  match normalize_and_validate_path fn with
  | .error e => .error (.invalidPath e, reg, disk)
  | .ok parts =>
    match (match open_file git disk reg fn with
           | .ok (r1, c) => Except.ok (r1, c, true)
           | .error .notFound => Except.ok (reg, "", false)
           | .error .gitNotFound => Except.ok (reg, "", false)
           | .error (.invalidPath e) => Except.error e) with
    | .error e => .error (.invalidPath e, reg, disk)
    | .ok (reg1, current, opened) =>
      let written := if last = current then content
                     else merge_content env.dmp current last content
      if env.ok then
        let disk1 := diskSet disk (.tmp parts) (written, env.newMtime)
        let disk2 := diskSet (diskErase disk1 (.tmp parts)) (.real parts)
                       (written, env.newMtime)
        let reg2 := if opened then regUpdateCM reg1 fn written env.newMtime else reg1
        let reg3 := if opened then close_file reg2 fn else reg2
        .ok (reg3, disk2, written)
      else
        let disk1 := diskErase (diskSet disk (.tmp parts) (written, env.newMtime))
                       (.tmp parts)
        let reg3 := if opened then close_file reg1 fn else reg1
        .error (.ioError, reg3, disk1)

/-- Embedding of `FileSystem._handle_file_deletion`: evict a tracked
entry (whatever its reference count) and fan out empty content; do
nothing for untracked names.  The second component is the list of
`(name, content)` notifications passed to `_notify_watchers`. -/
def handle_file_deletion (reg : Reg) (fn : String) : Reg × List (String × String) :=
  match reg fn with
  | some _ => (regErase reg fn, [(fn, "")])
  | none => (reg, [])

/-- Embedding of `FileSystem._handle_file_modification`: a vanished
file is treated as deleted; otherwise stat the file, drop the event
when the mtime equals the cached one, otherwise re-read, update the
cache and fan out the new content.  Untracked names produce no state
change. -/
def handle_file_modification (disk : Disk) (reg : Reg) (fn : String) :
    Reg × List (String × String) :=
  match disk (.real (pathComps fn)) with
  | none => handle_file_deletion reg fn
  | some (content, m) =>
    match reg fn with
    | some f =>
      if f.mtime = m then (reg, [])
      else (regSet reg fn ⟨content, f.ref_count, m⟩, [(fn, content)])
    | none => (reg, [])

/-- Embedding of `FileSystem._update_committed_files`, rendered
pointwise: the source iterates over the committed keys of the registry
and, for each, re-reads the blob at the new HEAD (absent blobs becoming
empty content), storing it when it differs from the cache; the stored
content therefore always ends up equal to the blob-or-empty value,
reference counts and mtimes untouched, and non-committed entries are
not visited. -/
def update_committed_files (git : GitF) (reg : Reg) : Reg :=
  fun fn =>
    match reg fn with
    | some f =>
      if is_committed_file_path fn then
        some { f with content := (git (extract_git_file_path fn)).getD "" }
      else some f
    | none => none

/-! ### The session layer (`files.py`)

A `Connection` is identified by `cid` (object identity in Python) and
carries its handle table `open_handles : handle ↦ filename` as an
association list in insertion order.  The inverse index
`file_handles : filename ↦ set of handles` that `files.py` maintains
incrementally is derived from the table: the two are kept in lockstep
by every code path of `Connection`. -/

/-- Embedding of `files.Connection` state. -/
structure Connection where
  cid : Nat
  open_handles : List (String × String)
deriving Repr, DecidableEq

/-- Lookup in an association list (Python dict access). -/
def alLookup (l : List (String × String)) (k : String) : Option String :=
  match l with
  | [] => none
  | (k2, v) :: rest => if k = k2 then some v else alLookup rest k

/-- Removal from an association list (Python dict `del`). -/
def alErase (l : List (String × String)) (k : String) : List (String × String) :=
  match l with
  | [] => []
  | (k2, v) :: rest => if k2 = k then rest else (k2, v) :: alErase rest k

/-- The handles of a connection subscribed to a filename: the derived
`Connection.file_handles[filename]`. -/
def fileHandlesOf (c : Connection) (fn : String) : List String :=
  (c.open_handles.filter (fun p => p.2 == fn)).map Prod.fst

/-- Total number of live handles naming `fn` across a list of
sessions. -/
def handleCount (conns : List Connection) (fn : String) : Nat :=
  (conns.map (fun c => (fileHandlesOf c fn).length)).sum

/-- Embedding of `Connection.on_file_change`: when this connection is
watching the file, schedule a `file_updated` for every subscribed
handle except the source handle.  The result is the list of
`(cid, handle)` recipients. -/
def on_file_change (c : Connection) (fn : String) (srcHandle : Option String) :
    List (Nat × String) :=
  ((fileHandlesOf c fn).filter (fun hd => decide (srcHandle ≠ some hd))).map
    (fun hd => (c.cid, hd))

/-- Embedding of `FileSystem._notify_watchers`: walk the watcher list;
the watcher equal to `source[0]` receives the event with the source
handle attached, every other watcher with `None`. -/
def notify_watchers (ws : List Connection) (fn : String)
    (source : Option (Nat × String)) : List (Nat × String) :=
  (ws.map (fun c =>
    match source with
    | some (sid, sh) =>
      if c.cid = sid then on_file_change c fn (some sh)
      else on_file_change c fn none
    | none => on_file_change c fn none)).flatten

/-! ### The whole system and its operations

`Sys` bundles the registry, the working tree, the git store at the
current HEAD and the live sessions.  `Op` is one observable operation:
a session connecting or disconnecting, the four client commands that
mutate state, and the change-detector reactions to external deletion,
external modification and a HEAD change.  Operations whose Python
counterpart raises before mutating anything leave the state unchanged. -/

structure Sys where
  reg : Reg
  disk : Disk
  git : GitF
  conns : List Connection

/-- One operation of the system. -/
inductive Op where
  | connect (cid : Nat)
  | disconnect (cid : Nat)
  | copen (cid : Nat) (fn handle : String)
  | cclose (cid : Nat) (handle : String)
  | cwrite (cid : Nat) (env : WriteEnv) (handle last new : String)
  | extDelete (fn : String)
  | extModify (fn content : String) (m : Nat)
  | headChange (git2 : GitF)

/-- Update the single connection with the given identity. -/
def updateConns (conns : List Connection) (cid : Nat)
    (f : Connection → Connection) : List Connection :=
  conns.map (fun c => if c.cid = cid then f c else c)

/-- Apply one operation, following `files.py` command handling composed
with the `FileSystem` methods.  `extDelete` and `extModify` combine the
external actor's change to the working tree with the change-detector
handler that reacts to it; `headChange` installs the new HEAD store and
runs `_update_committed_files`. -/
def applyOp (s : Sys) (op : Op) : Sys :=
  match op with
  | .connect cid =>
    if s.conns.any (fun c => c.cid == cid) then s
    else { s with conns := s.conns ++ [⟨cid, []⟩] }
  | .disconnect cid =>
    match s.conns.find? (fun c => c.cid == cid) with
    | none => s
    | some c =>
      { s with
        reg := c.open_handles.foldl (fun r p => close_file r p.2) s.reg,
        conns := s.conns.filter (fun c2 => !(c2.cid == cid)) }
  | .copen cid fn h =>
    match s.conns.find? (fun c => c.cid == cid) with
    | none => s
    | some c =>
      match alLookup c.open_handles h with
      | some _ => s
      | none =>
        match open_file s.git s.disk s.reg fn with
        | .error _ => s
        | .ok (r2, _) =>
          { s with
            reg := r2,
            conns := updateConns s.conns cid
              (fun c2 => { c2 with open_handles := c2.open_handles ++ [(h, fn)] }) }
  | .cclose cid h =>
    match s.conns.find? (fun c => c.cid == cid) with
    | none => s
    | some c =>
      match alLookup c.open_handles h with
      | none => s
      | some fn =>
        { s with
          reg := close_file s.reg fn,
          conns := updateConns s.conns cid
            (fun c2 => { c2 with open_handles := alErase c2.open_handles h }) }
  | .cwrite cid env h last new =>
    match s.conns.find? (fun c => c.cid == cid) with
    | none => s
    | some c =>
      match alLookup c.open_handles h with
      | none => s
      | some fn =>
        match write_file s.git s.disk s.reg env fn last new with
        | .error (_, r2, d2) => { s with reg := r2, disk := d2 }
        | .ok (r2, d2, _) => { s with reg := r2, disk := d2 }
  | .extDelete fn =>
    let disk2 := diskErase s.disk (.real (pathComps fn))
    { s with disk := disk2, reg := (handle_file_deletion s.reg fn).1 }
  | .extModify fn content m =>
    let disk2 := diskSet s.disk (.real (pathComps fn)) (content, m)
    { s with disk := disk2, reg := (handle_file_modification disk2 s.reg fn).1 }
  | .headChange git2 =>
    { s with git := git2, reg := update_committed_files git2 s.reg }

/-- The state before any operation: empty registry, no sessions, the
working tree and HEAD store as the environment provides them. -/
def initSys (d : Disk) (g : GitF) : Sys :=
  { reg := fun _ => none, disk := d, git := g, conns := [] }

/-- Run a sequence of operations from the initial state; the reachable
states are exactly the results of such runs. -/
def runOps (d : Disk) (g : GitF) (ops : List Op) : Sys :=
  ops.foldl applyOp (initSys d g)

/-! ### Invariants -/

/-- Every registry entry has a strictly positive reference count. -/
def RefCountInv (reg : Reg) : Prop :=
  ∀ fn f, reg fn = some f → 1 ≤ f.ref_count

/-- The reference count of an entry, zero for absent entries. -/
def rcAt (reg : Reg) (fn : String) : Int :=
  match reg fn with
  | some f => f.ref_count
  | none => 0

/-- Correspondence between sessions and the registry: for every name,
the reference count equals the total number of live handles naming it
(in particular an entry exists exactly when some handle names it). -/
def CountEq (s : Sys) : Prop :=
  ∀ fn, rcAt s.reg fn = (handleCount s.conns fn : Int)

/-- Distinct sessions are distinct objects. -/
def DistinctCids (conns : List Connection) : Prop :=
  conns.Pairwise (fun a b => a.cid ≠ b.cid)

/-- The registry/session invariant of the claim: distinct sessions,
positive reference counts, and the exact handle/count correspondence. -/
def SysInv (s : Sys) : Prop :=
  DistinctCids s.conns ∧ RefCountInv s.reg ∧ CountEq s

/-- Whether an operation is the change-detector deletion handler. -/
def isExtDelete : Op → Bool
  | .extDelete _ => true
  | _ => false

/-! ### Projections and validity predicates used by the theorems -/

/-- The content `write_file` returns, when it succeeds. -/
def resWritten : Except (WriteError × Reg × Disk) (Reg × Disk × String) → Option String
  | .ok (_, _, w) => some w
  | .error _ => none

/-- The working tree after a `write_file` call, successful or not. -/
def resDisk : Except (WriteError × Reg × Disk) (Reg × Disk × String) → Disk
  | .ok (_, d, _) => d
  | .error (_, _, d) => d

/-- The registry after a `write_file` call, successful or not. -/
def resReg : Except (WriteError × Reg × Disk) (Reg × Disk × String) → Reg
  | .ok (r, _, _) => r
  | .error (_, r, _) => r

/-- The components of a name accepted by the validator. -/
def validParts (fn : String) : List String :=
  match normalize_and_validate_path fn with
  | .ok ps => ps
  | .error _ => []

/-- The validation `open_file` performs on a name: the stripped path
for committed names, the name itself otherwise. -/
def openValidOk (fn : String) : Bool :=
  if is_committed_file_path fn then
    (normalize_and_validate_path (extract_git_file_path fn)).isOk
  else
    (normalize_and_validate_path fn).isOk

/-- The validations `write_file` performs: its own on the full name and,
via `open_file`, the one on the possibly stripped name. -/
def writeValidOk (fn : String) : Bool :=
  (normalize_and_validate_path fn).isOk && openValidOk fn

/-- Content that `write_file` takes as current: the open result, the
empty string when the underlying source lacks the file. -/
def currentContentOf (git : GitF) (disk : Disk) (reg : Reg) (fn : String) : String :=
  match open_file git disk reg fn with
  | .ok (_, c) => c
  | .error _ => ""

/-- C9.  An external added/modified event on a tracked file whose stat
mtime equals the cached mtime is dropped by the change detector: the
registry (hence the cached content and mtime) is unchanged and no
notification is fanned out. -/
theorem C9_mtime_short_circuit (disk : Disk) (reg : Reg) (fn content : String)
    (m : Nat) (f : File)
    (hdisk : disk (.real (pathComps fn)) = some (content, m))
    (hreg : reg fn = some f) (hmtime : f.mtime = m) :
    handle_file_modification disk reg fn = (reg, []) := by
  unfold handle_file_modification
  rw [hdisk, hreg]
  simp only [if_pos hmtime]

/-- Witness for C9 at a concrete tracked file with matching mtime. -/
theorem C9_witness :
    handle_file_modification
      (diskSet (fun _ => none) (.real ["a.txt"]) ("y", 5))
      (regSet (fun _ => none) "a.txt" ⟨"x", 1, 5⟩) "a.txt"
    = (regSet (fun _ => none) "a.txt" ⟨"x", 1, 5⟩, []) :=
  C9_mtime_short_circuit _ _ _ "y" 5 ⟨"x", 1, 5⟩ rfl rfl rfl

/-- C10.  Opening a name that already has a registry entry returns the
cached content and only increments the reference count; the result does
not depend on the working tree or the git store at all (first conjunct:
the result only mentions the entry; second conjunct: any two
environments give the same result), so the returned content can differ
from the current on-disk content. -/
theorem C10_open_uses_cache_only (git git2 : GitF) (disk disk2 : Disk)
    (reg : Reg) (fn : String) (f : File)
    (hv : openValidOk fn = true) (hreg : reg fn = some f) :
    open_file git disk reg fn =
      .ok (regSet reg fn { f with ref_count := f.ref_count + 1 }, f.content)
    ∧ open_file git disk reg fn = open_file git2 disk2 reg fn := by
  unfold openValidOk at hv
  unfold open_file
  by_cases hc : is_committed_file_path fn = true
  · rw [hc] at hv
    simp only [hc, if_true]
    cases hval : normalize_and_validate_path (extract_git_file_path fn) with
    | error e => rw [hval] at hv; simp [Except.isOk, Except.toBool] at hv
    | ok ps => rw [hreg]; exact ⟨rfl, rfl⟩
  · simp only [hc] at hv ⊢
    simp only [Bool.false_eq_true, if_false]
    cases hval : normalize_and_validate_path fn with
    | error e => rw [hval] at hv; simp [Except.isOk, Except.toBool] at hv
    | ok ps => rw [hreg]; exact ⟨rfl, rfl⟩

/-- Witness for C10: a cached entry whose content differs from the
disk content; the open returns the cache and bumps the count. -/
theorem C10_witness :
    open_file (fun _ => none) (diskSet (fun _ => none) (.real ["a.txt"]) ("disk", 9))
      (regSet (fun _ => none) "a.txt" ⟨"cached", 1, 3⟩) "a.txt" =
      .ok (regSet (regSet (fun _ => none) "a.txt" ⟨"cached", 1, 3⟩) "a.txt"
            ⟨"cached", 1 + 1, 3⟩, "cached")
    ∧ open_file (fun _ => none)
        (diskSet (fun _ => none) (.real ["a.txt"]) ("disk", 9))
        (regSet (fun _ => none) "a.txt" ⟨"cached", 1, 3⟩) "a.txt" =
      open_file (fun _ => some "blob") (fun _ => none)
        (regSet (fun _ => none) "a.txt" ⟨"cached", 1, 3⟩) "a.txt" :=
  C10_open_uses_cache_only _ _ _ _ _ "a.txt" ⟨"cached", 1, 3⟩ rfl rfl

/-! ### Fan-out -/

/-- Membership in a single connection's scheduled events. -/
lemma mem_on_file_change {c : Connection} {fn : String} {srcHandle : Option String}
    {a : Nat} {hd : String} :
    (a, hd) ∈ on_file_change c fn srcHandle ↔
      a = c.cid ∧ hd ∈ fileHandlesOf c fn ∧ srcHandle ≠ some hd := by
  simp only [on_file_change, List.mem_map, List.mem_filter, decide_eq_true_eq,
    Prod.mk.injEq]
  constructor
  · rintro ⟨x, ⟨hx, hxs⟩, hca, hxh⟩
    subst hxh
    exact ⟨hca.symm, hx, hxs⟩
  · rintro ⟨ha, hmem, hne⟩
    exact ⟨hd, ⟨hmem, hne⟩, ha.symm, rfl⟩

/-- Membership in a fan-out that carries a source. -/
lemma mem_notify_watchers_some {ws : List Connection} {fn : String}
    {sid : Nat} {sh : String} {a : Nat} {hd : String} :
    (a, hd) ∈ notify_watchers ws fn (some (sid, sh)) ↔
      ∃ c ∈ ws, (a, hd) ∈ (if c.cid = sid then on_file_change c fn (some sh)
                           else on_file_change c fn none) := by
  simp only [notify_watchers, List.mem_flatten, List.mem_map]
  constructor
  · rintro ⟨l, ⟨c, hc, rfl⟩, hmem⟩
    exact ⟨c, hc, hmem⟩
  · rintro ⟨c, hc, hmem⟩
    exact ⟨_, ⟨c, hc, rfl⟩, hmem⟩

/-- Membership in a fan-out without a source. -/
lemma mem_notify_watchers_none {ws : List Connection} {fn : String}
    {a : Nat} {hd : String} :
    (a, hd) ∈ notify_watchers ws fn none ↔
      ∃ c ∈ ws, (a, hd) ∈ on_file_change c fn none := by
  simp only [notify_watchers, List.mem_flatten, List.mem_map]
  constructor
  · rintro ⟨l, ⟨c, hc, rfl⟩, hmem⟩
    exact ⟨c, hc, hmem⟩
  · rintro ⟨c, hc, hmem⟩
    exact ⟨_, ⟨c, hc, rfl⟩, hmem⟩

/-- C7.  For a fan-out with source (session `sid`, handle `sh`), a
subscribed handle receives the event exactly when it is not the source
handle on the source session: other handles of the source session and
every handle of other sessions receive it; with no source every
subscribed handle receives it. -/
theorem C7_fanout_excludes_exactly_source_handle
    (ws : List Connection) (fn : String) (sid : Nat) (sh : String)
    (c : Connection) (hc : c ∈ ws)
    (hd : String) (hmem : hd ∈ fileHandlesOf c fn) :
    (((c.cid, hd) ∈ notify_watchers ws fn (some (sid, sh))) ↔
      ¬(c.cid = sid ∧ hd = sh))
    ∧ ((c.cid, hd) ∈ notify_watchers ws fn none) := by
  constructor
  · constructor
    · intro hin
      rcases mem_notify_watchers_some.mp hin with ⟨c2, hc2, hbr⟩
      by_cases hcs : c2.cid = sid
      · rw [if_pos hcs] at hbr
        rcases mem_on_file_change.mp hbr with ⟨ha, _, hne⟩
        rintro ⟨h1, rfl⟩
        exact hne rfl
      · rw [if_neg hcs] at hbr
        rcases mem_on_file_change.mp hbr with ⟨ha, _, _⟩
        rintro ⟨h1, rfl⟩
        exact hcs (ha ▸ h1)
    · intro hne
      apply mem_notify_watchers_some.mpr
      refine ⟨c, hc, ?_⟩
      by_cases hcs : c.cid = sid
      · rw [if_pos hcs]
        apply mem_on_file_change.mpr
        refine ⟨rfl, hmem, ?_⟩
        intro hcontra
        have : hd = sh := (Option.some.injEq sh hd).mp hcontra |>.symm
        exact hne ⟨hcs, this⟩
      · rw [if_neg hcs]
        exact mem_on_file_change.mpr ⟨rfl, hmem, by simp⟩
  · apply mem_notify_watchers_none.mpr
    exact ⟨c, hc, mem_on_file_change.mpr ⟨rfl, hmem, by simp⟩⟩

/-! ### Structural lemmas about `open_file`, `close_file`, `write_file` -/

/-- A name whose (possibly stripped) form validates cannot make
`open_file` raise the validation error. -/
lemma open_not_invalid {git : GitF} {disk : Disk} {reg : Reg} {fn : String}
    (hv : openValidOk fn = true) (e : PathError) :
    open_file git disk reg fn ≠ .error (.invalidPath e) := by
  unfold openValidOk at hv
  unfold open_file
  by_cases hc : is_committed_file_path fn = true
  · rw [if_pos hc] at hv
    rw [if_pos hc]
    cases hval : normalize_and_validate_path (extract_git_file_path fn) with
    | error e2 => rw [hval] at hv; simp [Except.isOk, Except.toBool] at hv
    | ok ps =>
      cases hreg : reg fn with
      | some f => simp
      | none => cases hgit : git (extract_git_file_path fn) <;> simp [hgit]
  · rw [if_neg hc] at hv
    rw [if_neg hc]
    cases hval : normalize_and_validate_path fn with
    | error e2 => rw [hval] at hv; simp [Except.isOk, Except.toBool] at hv
    | ok ps =>
      cases hreg : reg fn with
      | some f => simp
      | none =>
        cases hdisk : disk (.real ps) with
        | none => simp [hdisk]
        | some v => cases v; simp [hdisk]

/-- Case analysis of a successful open: either the entry existed and
only its count was bumped, or a fresh entry with count one was created
from the underlying source. -/
lemma open_file_cases {git : GitF} {disk : Disk} {reg : Reg} {fn : String}
    {r1 : Reg} {c : String} (h : open_file git disk reg fn = .ok (r1, c)) :
    (∃ f, reg fn = some f ∧ c = f.content ∧
      r1 = regSet reg fn { f with ref_count := f.ref_count + 1 })
    ∨ (reg fn = none ∧ ∃ m, r1 = regSet reg fn ⟨c, 1, m⟩) := by
  unfold open_file at h
  by_cases hc : is_committed_file_path fn = true
  · rw [if_pos hc] at h
    cases hval : normalize_and_validate_path (extract_git_file_path fn) with
    | error e2 => rw [hval] at h; cases h
    | ok ps =>
      cases hreg : reg fn with
      | some f =>
        simp only [hval, hreg] at h
        injection h with h2
        injection h2 with h3 h4
        exact .inl ⟨f, rfl, h4.symm, h3.symm⟩
      | none =>
        cases hgit : git (extract_git_file_path fn) with
        | none => simp only [hval, hreg, hgit] at h; cases h
        | some content =>
          simp only [hval, hreg, hgit] at h
          injection h with h2
          injection h2 with h3 h4
          subst h4
          exact .inr ⟨rfl, 0, h3.symm⟩
  · rw [if_neg hc] at h
    cases hval : normalize_and_validate_path fn with
    | error e2 => rw [hval] at h; cases h
    | ok ps =>
      cases hreg : reg fn with
      | some f =>
        simp only [hval, hreg] at h
        injection h with h2
        injection h2 with h3 h4
        exact .inl ⟨f, rfl, h4.symm, h3.symm⟩
      | none =>
        cases hdisk : disk (.real ps) with
        | none => simp only [hval, hreg, hdisk] at h; cases h
        | some v =>
          obtain ⟨content, m⟩ := v
          simp only [hval, hreg, hdisk] at h
          injection h with h2
          injection h2 with h3 h4
          subst h4
          exact .inr ⟨rfl, m, h3.symm⟩

/-- Unfolding of `write_file` once the name validates and the open
cannot raise a path error: the result is determined by the open
outcome, the merge decision and the atomic-write outcome. -/
lemma write_file_eq (git : GitF) (disk : Disk) (reg : Reg) (env : WriteEnv)
    (fn last content : String) (parts : List String)
    (hval : normalize_and_validate_path fn = .ok parts)
    (hnoinv : ∀ e, open_file git disk reg fn ≠ .error (.invalidPath e)) :
    write_file git disk reg env fn last content =
      (let oc : Reg × String × Bool :=
        match open_file git disk reg fn with
        | .ok (r1, c) => (r1, c, true)
        | .error _ => (reg, "", false)
       let written := if last = oc.2.1 then content
                      else merge_content env.dmp oc.2.1 last content
       if env.ok then
         .ok ((if oc.2.2 then close_file (regUpdateCM oc.1 fn written env.newMtime) fn
               else oc.1),
              diskSet (diskErase (diskSet disk (.tmp parts) (written, env.newMtime))
                  (.tmp parts)) (.real parts) (written, env.newMtime),
              written)
       else
         .error (.ioError,
                 (if oc.2.2 then close_file oc.1 fn else oc.1),
                 diskErase (diskSet disk (.tmp parts) (written, env.newMtime))
                   (.tmp parts))) := by
  unfold write_file
  rw [hval]
  cases ho : open_file git disk reg fn with
  | ok rc =>
    obtain ⟨r1, c⟩ := rc
    rfl
  | error e =>
    cases e with
    | invalidPath e2 => exact absurd ho (hnoinv e2)
    | notFound => rfl
    | gitNotFound => rfl

/-- C2.  For every write that validates and whose atomic write
succeeds: when `last` equals the current content (the cached content,
the freshly read content, or the empty string when the file is absent)
the returned content is exactly the new content, otherwise it is the
three-way merge of the current content with the client's patches; the
content stored at the target path on disk equals the returned content;
and the merge falls back to the current content when the patch library
raises. -/
theorem C2_write_merge_semantics (git : GitF) (disk : Disk) (reg : Reg)
    (env : WriteEnv) (fn last new : String)
    (hok : env.ok = true) (hv : writeValidOk fn = true) :
    resWritten (write_file git disk reg env fn last new) =
      some (if last = currentContentOf git disk reg fn then new
            else merge_content env.dmp (currentContentOf git disk reg fn) last new)
    ∧ resDisk (write_file git disk reg env fn last new) (.real (validParts fn)) =
      some ((if last = currentContentOf git disk reg fn then new
             else merge_content env.dmp (currentContentOf git disk reg fn) last new),
            env.newMtime)
    ∧ (∀ cur l n, env.dmp l n cur = none → merge_content env.dmp cur l n = cur) := by
  have hv2 := hv
  unfold writeValidOk at hv2
  rw [Bool.and_eq_true] at hv2
  obtain ⟨h1, h2⟩ := hv2
  cases hval : normalize_and_validate_path fn with
  | error e => rw [hval] at h1; simp [Except.isOk, Except.toBool] at h1
  | ok parts =>
    have heq := write_file_eq git disk reg env fn last new parts hval
      (fun e => open_not_invalid h2 e)
    refine ⟨?_, ?_, ?_⟩
    · rw [heq]
      cases ho : open_file git disk reg fn with
      | ok rc =>
        obtain ⟨r1, c⟩ := rc
        simp [currentContentOf, ho, hok, resWritten]
      | error e =>
        simp [currentContentOf, ho, hok, resWritten]
    · rw [heq]
      unfold validParts
      rw [hval]
      cases ho : open_file git disk reg fn with
      | ok rc =>
        obtain ⟨r1, c⟩ := rc
        simp [currentContentOf, ho, hok, resDisk, diskSet]
      | error e =>
        simp [currentContentOf, ho, hok, resDisk, diskSet]
    · intro cur l n hnone
      unfold merge_content
      rw [hnone]

/-- Concrete patch library behaviour used in witnesses. -/
def dmpW : String → String → String → Option String :=
  fun _ n c => some (c ++ n)

/-- Concrete working tree used in witnesses: one file with content
distinct from what the writing client last saw. -/
def dW : Disk := diskSet (fun _ => none) (.real ["t.txt"]) ("cur", 3)

/-- Concrete write environment used in witnesses. -/
def envW2 : WriteEnv := ⟨true, 9, dmpW⟩

/-- The empty registry. -/
def regE : Reg := fun _ => none

/-- The empty git store. -/
def gN : GitF := fun _ => none

/-- Witness for C2 at a conflicting write: the file is on disk with
content different from the client's base, so the merge branch is
taken. -/
theorem C2_witness :
    resWritten (write_file gN dW regE envW2 "t.txt" "base" "new") =
      some (if "base" = currentContentOf gN dW regE "t.txt" then "new"
            else merge_content envW2.dmp (currentContentOf gN dW regE "t.txt")
              "base" "new")
    ∧ resDisk (write_file gN dW regE envW2 "t.txt" "base" "new")
        (.real (validParts "t.txt")) =
      some ((if "base" = currentContentOf gN dW regE "t.txt" then "new"
             else merge_content envW2.dmp (currentContentOf gN dW regE "t.txt")
               "base" "new"), envW2.newMtime)
    ∧ (∀ cur l n, envW2.dmp l n cur = none → merge_content envW2.dmp cur l n = cur) :=
  C2_write_merge_semantics gN dW regE envW2 "t.txt" "base" "new" rfl rfl

/-- Witness for C7 with two sessions subscribed to the same file: the
peer handle receives the event, and membership is decided exactly by
not being the source handle. -/
theorem C7_witness :
    ((((1 : Nat), "hB") ∈
        notify_watchers [⟨0, [("hA", "a.txt")]⟩, ⟨1, [("hB", "a.txt")]⟩]
          "a.txt" (some (0, "hA"))) ↔ ¬((1 : Nat) = 0 ∧ "hB" = "hA"))
    ∧ (((1 : Nat), "hB") ∈
        notify_watchers [⟨0, [("hA", "a.txt")]⟩, ⟨1, [("hB", "a.txt")]⟩]
          "a.txt" none) :=
  C7_fanout_excludes_exactly_source_handle
    [⟨0, [("hA", "a.txt")]⟩, ⟨1, [("hB", "a.txt")]⟩] "a.txt" 0 "hA"
    ⟨1, [("hB", "a.txt")]⟩ (by decide) "hB" (by decide)

/-! ### The write command of the session layer

`handle_write_file` in `files.py` validates the handle, calls
`FileSystem.write_file` with `source=(connection, handle)` — which, on
success, hands the fan-out recipients to `asyncio.create_task`; under
cooperative scheduling those tasks only run once the handler suspends —
and then sends the `file_written` reply.  The emission trace therefore
carries the reply first and the deferred `file_updated` deliveries
after it.  Exceptions are reported as an `error` frame. -/

/-- Frames emitted to clients during one write command. -/
inductive WsMsg where
  | fileWritten (cid : Nat) (handle content : String)
  | fileUpdated (cid : Nat) (handle content : String)
  | errorMsg (cid : Nat)
deriving Repr, DecidableEq

/-- Whether a frame is a `file_written` reply. -/
def isFileWritten : WsMsg → Bool
  | .fileWritten _ _ _ => true
  | _ => false

/-- Whether a frame is a `file_updated` event. -/
def isFileUpdated : WsMsg → Bool
  | .fileUpdated _ _ _ => true
  | _ => false

/-- Embedding of `handle_write_file` running on session `cid`,
returning the post state and the emission trace in order. -/
def run_write_command (env : WriteEnv) (s : Sys) (cid : Nat)
    (h last new : String) : Sys × List WsMsg :=
  match s.conns.find? (fun c => c.cid == cid) with
  | none => (s, [])
  | some c =>
    match alLookup c.open_handles h with
    | none => (s, [.errorMsg cid])
    | some fn =>
      match write_file s.git s.disk s.reg env fn last new with
      | .error (_, r2, d2) => ({ s with reg := r2, disk := d2 }, [.errorMsg cid])
      | .ok (r2, d2, written) =>
        let pending := notify_watchers s.conns fn (some (cid, h))
        ({ s with reg := r2, disk := d2 },
         .fileWritten cid h written ::
           pending.map (fun e => .fileUpdated e.1 e.2 written))

/-- C8.  In the trace of any write command, the `file_written` reply to
the writing handle precedes every `file_updated` event caused by the
same write. -/
theorem C8_reply_before_updates (env : WriteEnv) (s : Sys) (cid : Nat)
    (h last new : String) (i j : Nat) (mi mj : WsMsg)
    (hi : ((run_write_command env s cid h last new).2).get? i = some mi)
    (hj : ((run_write_command env s cid h last new).2).get? j = some mj)
    (hwi : isFileWritten mi = true) (huj : isFileUpdated mj = true) :
    i < j := by
  unfold run_write_command at hi hj
  cases hfind : s.conns.find? (fun c => c.cid == cid) with
  | none => simp only [hfind] at hi; cases i <;> cases hi
  | some c =>
    simp only [hfind] at hi hj
    cases hlook : alLookup c.open_handles h with
    | none =>
      simp only [hlook] at hi
      cases i with
      | zero =>
        injection hi with hi2
        rw [← hi2] at hwi
        cases hwi
      | succ n => cases hi
    | some fn =>
      simp only [hlook] at hi hj
      cases hw : write_file s.git s.disk s.reg env fn last new with
      | error e =>
        obtain ⟨e1, r2, d2⟩ := e
        simp only [hw] at hi
        cases i with
        | zero =>
          injection hi with hi2
          rw [← hi2] at hwi
          cases hwi
        | succ n => cases hi
      | ok v =>
        obtain ⟨r2, d2, written⟩ := v
        simp only [hw] at hi hj
        cases j with
        | zero =>
          injection hj with hj2
          rw [← hj2] at huj
          cases huj
        | succ n =>
          cases i with
          | zero => exact Nat.succ_pos n
          | succ k =>
            exfalso
            have hmem : mi ∈ (notify_watchers s.conns fn (some (cid, h))).map
                (fun e => WsMsg.fileUpdated e.1 e.2 written) := by
              exact List.get?_mem hi
            rcases List.mem_map.mp hmem with ⟨e2, _, he⟩
            rw [← he] at hwi
            cases hwi

/-- Closing right after a successful open restores the registry
pointwise, provided counts were positive to begin with. -/
lemma close_of_open_restore {git : GitF} {disk : Disk} {reg : Reg} {fn : String}
    {r1 : Reg} {c : String} (hrc : RefCountInv reg)
    (ho : open_file git disk reg fn = .ok (r1, c)) (k : String) :
    close_file r1 fn k = reg k := by
  rcases open_file_cases ho with ⟨f, hreg, _, hr1⟩ | ⟨hreg, m, hr1⟩
  · have hpos := hrc fn f hreg
    subst hr1
    unfold close_file
    have hlook : regSet reg fn { f with ref_count := f.ref_count + 1 } fn =
        some { f with ref_count := f.ref_count + 1 } := by
      unfold regSet; simp
    simp only [hlook]
    have hcond : ¬ (({ f with ref_count := f.ref_count + 1 } : File).ref_count - 1 ≤ 0) := by
      simp only []
      omega
    rw [if_neg hcond]
    unfold regSet
    by_cases hk : k = fn
    · subst hk
      rw [if_pos rfl, hreg]
      congr 1
      cases f with
      | mk co rc mt => simp
    · rw [if_neg hk, if_neg hk]
  · subst hr1
    unfold close_file
    have hlook : regSet reg fn ⟨c, 1, m⟩ fn = some ⟨c, 1, m⟩ := by
      unfold regSet; simp
    simp only [hlook]
    rw [if_pos (by norm_num)]
    unfold regErase regSet
    by_cases hk : k = fn
    · subst hk; rw [if_pos rfl, hreg]
    · rw [if_neg hk, if_neg hk]

/-- On a failed atomic write, `write_file` restores the registry
pointwise, unlinks the temporary file, leaves every other disk entry
unchanged and returns no content. -/
lemma write_fail_state (git : GitF) (disk : Disk) (reg : Reg) (env : WriteEnv)
    (fn last content : String) (parts : List String)
    (hval : normalize_and_validate_path fn = .ok parts)
    (hv2 : openValidOk fn = true) (hrc : RefCountInv reg)
    (hnok : env.ok = false) :
    (∀ k, resReg (write_file git disk reg env fn last content) k = reg k)
    ∧ resDisk (write_file git disk reg env fn last content) (.tmp parts) = none
    ∧ (∀ k, k ≠ DiskKey.tmp parts →
        resDisk (write_file git disk reg env fn last content) k = disk k)
    ∧ resWritten (write_file git disk reg env fn last content) = none := by
  have heq := write_file_eq git disk reg env fn last content parts hval
    (fun e => open_not_invalid hv2 e)
  refine ⟨?_, ?_, ?_, ?_⟩
  · intro k
    rw [heq]
    cases ho : open_file git disk reg fn with
    | ok rc =>
      obtain ⟨r1, c⟩ := rc
      simp only [ho, hnok, Bool.false_eq_true, if_false, resReg, if_pos rfl]
      exact close_of_open_restore hrc ho k
    | error e =>
      simp only [ho, hnok, Bool.false_eq_true, if_false, resReg]
  · rw [heq]
    cases ho : open_file git disk reg fn with
    | ok rc =>
      obtain ⟨r1, c⟩ := rc
      simp only [ho, hnok, Bool.false_eq_true, if_false, resDisk]
      unfold diskErase
      rw [if_pos rfl]
    | error e =>
      simp only [ho, hnok, Bool.false_eq_true, if_false, resDisk]
      unfold diskErase
      rw [if_pos rfl]
  · intro k hk
    rw [heq]
    cases ho : open_file git disk reg fn with
    | ok rc =>
      obtain ⟨r1, c⟩ := rc
      simp only [ho, hnok, Bool.false_eq_true, if_false, resDisk]
      unfold diskErase diskSet
      rw [if_neg hk, if_neg hk]
    | error e =>
      simp only [ho, hnok, Bool.false_eq_true, if_false, resDisk]
      unfold diskErase diskSet
      rw [if_neg hk, if_neg hk]
  · rw [heq]
    cases ho : open_file git disk reg fn with
    | ok rc =>
      obtain ⟨r1, c⟩ := rc
      simp only [ho, hnok, Bool.false_eq_true, if_false, resWritten]
    | error e =>
      simp only [ho, hnok, Bool.false_eq_true, if_false, resWritten]

/-- C6.  When the atomic write fails, the write command reports an
error frame and nothing else: the registry is unchanged pointwise (so
every entry keeps its cached content, mtime and reference count), no
temporary file is left on disk, every other disk entry is untouched,
the session list and HEAD store are untouched, and no `file_updated`
is fanned out. -/
theorem C6_failed_write_preserves_state (env : WriteEnv) (s : Sys) (cid : Nat)
    (h last new : String) (c : Connection) (fn : String)
    (hnok : env.ok = false)
    (hfind : s.conns.find? (fun c => c.cid == cid) = some c)
    (hlook : alLookup c.open_handles h = some fn)
    (hv : writeValidOk fn = true)
    (hrc : RefCountInv s.reg) :
    (run_write_command env s cid h last new).2 = [.errorMsg cid]
    ∧ (∀ k, (run_write_command env s cid h last new).1.reg k = s.reg k)
    ∧ (run_write_command env s cid h last new).1.disk
        (.tmp (validParts fn)) = none
    ∧ (∀ k, k ≠ DiskKey.tmp (validParts fn) →
        (run_write_command env s cid h last new).1.disk k = s.disk k)
    ∧ (run_write_command env s cid h last new).1.conns = s.conns
    ∧ (run_write_command env s cid h last new).1.git = s.git
    ∧ (∀ m, m ∈ (run_write_command env s cid h last new).2 →
        isFileUpdated m = false) := by
  have hv2 := hv
  unfold writeValidOk at hv2
  rw [Bool.and_eq_true] at hv2
  obtain ⟨h1, h2⟩ := hv2
  cases hval : normalize_and_validate_path fn with
  | error e => rw [hval] at h1; simp [Except.isOk, Except.toBool] at h1
  | ok parts =>
    have hvp : validParts fn = parts := by unfold validParts; rw [hval]
    have hfail := write_fail_state s.git s.disk s.reg env fn last new parts
      hval h2 hrc hnok
    obtain ⟨hreg, htmp, hother, hnothing⟩ := hfail
    cases hw : write_file s.git s.disk s.reg env fn last new with
    | ok v =>
      rw [hw] at hnothing
      obtain ⟨r2, d2, written⟩ := v
      cases hnothing
    | error e =>
      obtain ⟨e1, r2, d2⟩ := e
      rw [hw] at hreg htmp hother
      have hrun : run_write_command env s cid h last new =
          ({ s with reg := r2, disk := d2 }, [.errorMsg cid]) := by
        unfold run_write_command
        simp only [hfind, hlook, hw]
      rw [hrun, hvp]
      refine ⟨rfl, ?_, ?_, ?_, rfl, rfl, ?_⟩
      · intro k; exact hreg k
      · exact htmp
      · intro k hk; exact hother k hk
      · intro m hm
        rcases List.mem_singleton.mp hm with rfl
        rfl

/-- Concrete failing write environment. -/
def envF : WriteEnv := ⟨false, 9, dmpW⟩

/-- Concrete two-session system used by several witnesses: both
sessions hold a handle on the same tracked file. -/
def sW8 : Sys :=
  { reg := regSet (fun _ => none) "a.txt" ⟨"v1", 2, 3⟩,
    disk := diskSet (fun _ => none) (.real ["a.txt"]) ("v1", 3),
    git := gN,
    conns := [⟨0, [("h", "a.txt")]⟩, ⟨1, [("hB", "a.txt")]⟩] }

/-- Witness for C8: a successful write on the concrete two-session
system emits the reply at position zero and the peer update at
position one. -/
theorem C8_witness :
    ((run_write_command envW2 sW8 0 "h" "v1" "v2").2).get? 0 =
      some (.fileWritten 0 "h" "v2")
    ∧ ((run_write_command envW2 sW8 0 "h" "v1" "v2").2).get? 1 =
      some (.fileUpdated 1 "hB" "v2")
    ∧ (0 : Nat) < 1 :=
  ⟨rfl, rfl,
    C8_reply_before_updates envW2 sW8 0 "h" "v1" "v2" 0 1
      (.fileWritten 0 "h" "v2") (.fileUpdated 1 "hB" "v2") rfl rfl rfl rfl⟩

/-- Witness for C6: the failing write on the concrete two-session
system reports an error and preserves the state. -/
theorem C6_witness :
    (run_write_command envF sW8 0 "h" "v1" "v2").2 = [.errorMsg 0]
    ∧ (∀ k, (run_write_command envF sW8 0 "h" "v1" "v2").1.reg k = sW8.reg k)
    ∧ (run_write_command envF sW8 0 "h" "v1" "v2").1.disk
        (.tmp (validParts "a.txt")) = none
    ∧ (∀ k, k ≠ DiskKey.tmp (validParts "a.txt") →
        (run_write_command envF sW8 0 "h" "v1" "v2").1.disk k = sW8.disk k)
    ∧ (run_write_command envF sW8 0 "h" "v1" "v2").1.conns = sW8.conns
    ∧ (run_write_command envF sW8 0 "h" "v1" "v2").1.git = sW8.git
    ∧ (∀ m, m ∈ (run_write_command envF sW8 0 "h" "v1" "v2").2 →
        isFileUpdated m = false) :=
  C6_failed_write_preserves_state envF sW8 0 "h" "v1" "v2"
    ⟨0, [("h", "a.txt")]⟩ "a.txt" rfl rfl rfl rfl
    (by
      intro fn f hf
      simp only [sW8, regSet] at hf
      by_cases hk : fn = "a.txt"
      · rw [if_pos hk] at hf
        injection hf with hf2
        rw [← hf2]
        norm_num
      · rw [if_neg hk] at hf
        cases hf)

/-! ### Frame lemmas -/

/-- An update leaves other keys alone. -/
lemma regSet_ne {reg : Reg} {fn k : String} {f : File} (h : k ≠ fn) :
    regSet reg fn f k = reg k := by
  unfold regSet; rw [if_neg h]

/-- A removal leaves other keys alone. -/
lemma regErase_ne {reg : Reg} {fn k : String} (h : k ≠ fn) :
    regErase reg fn k = reg k := by
  unfold regErase; rw [if_neg h]

/-- A cache update leaves other keys alone. -/
lemma regUpdateCM_ne {reg : Reg} {fn k c : String} {m : Nat} (h : k ≠ fn) :
    regUpdateCM reg fn c m k = reg k := by
  unfold regUpdateCM; rw [if_neg h]

/-- Closing a file leaves other keys alone. -/
lemma close_file_ne {reg : Reg} {fn k : String} (h : k ≠ fn) :
    close_file reg fn k = reg k := by
  unfold close_file
  cases hreg : reg fn with
  | none => simp only [hreg]
  | some f =>
    simp only [hreg]
    by_cases hc : f.ref_count - 1 ≤ 0
    · rw [if_pos hc]; exact regErase_ne h
    · rw [if_neg hc]; exact regSet_ne h

/-- A successful open leaves other keys alone. -/
lemma open_file_ne {git : GitF} {disk : Disk} {reg : Reg} {fn : String}
    {r1 : Reg} {c : String} (ho : open_file git disk reg fn = .ok (r1, c))
    {k : String} (h : k ≠ fn) : r1 k = reg k := by
  rcases open_file_cases ho with ⟨f, _, _, hr1⟩ | ⟨_, m, hr1⟩ <;>
    (subst hr1; exact regSet_ne h)

/-- A write, successful or failed, leaves other registry keys alone. -/
lemma write_reg_frame (git : GitF) (disk : Disk) (reg : Reg) (env : WriteEnv)
    (fn last content : String) {k : String} (hk : k ≠ fn) :
    resReg (write_file git disk reg env fn last content) k = reg k := by
  unfold write_file
  cases hval : normalize_and_validate_path fn with
  | error e => rfl
  | ok parts =>
    cases ho : open_file git disk reg fn with
    | ok rc =>
      obtain ⟨r1, c⟩ := rc
      have h1 : r1 k = reg k := open_file_ne ho hk
      by_cases hok : env.ok = true
      · simp only [ho, hok, if_true, resReg]
        rw [close_file_ne hk, regUpdateCM_ne hk, h1]
      · rw [Bool.not_eq_true] at hok
        simp only [ho, hok, Bool.false_eq_true, if_false, resReg]
        rw [if_pos trivial, close_file_ne hk, h1]
    | error e =>
      cases e with
      | invalidPath e2 => simp only [ho, resReg]
      | notFound =>
        by_cases hok : env.ok = true
        · simp [ho, hok, resReg]
        · rw [Bool.not_eq_true] at hok
          simp [ho, hok, resReg]
      | gitNotFound =>
        by_cases hok : env.ok = true
        · simp [ho, hok, resReg]
        · rw [Bool.not_eq_true] at hok
          simp [ho, hok, resReg]

/-- A write only touches the validated target path and its temporary
sibling on disk. -/
lemma write_disk_frame (git : GitF) (disk : Disk) (reg : Reg) (env : WriteEnv)
    (fn last content : String) (parts : List String)
    (hval : normalize_and_validate_path fn = .ok parts)
    (hnoinv : ∀ e, open_file git disk reg fn ≠ .error (.invalidPath e)) :
    ∀ k, k ≠ DiskKey.real parts → k ≠ DiskKey.tmp parts →
      resDisk (write_file git disk reg env fn last content) k = disk k := by
  intro k h1 h2
  rw [write_file_eq git disk reg env fn last content parts hval hnoinv]
  by_cases hok : env.ok = true
  · cases ho : open_file git disk reg fn with
    | ok rc =>
      obtain ⟨r1, c⟩ := rc
      simp [ho, hok, resDisk, diskSet, diskErase, h1, h2]
    | error e => simp [ho, hok, resDisk, diskSet, diskErase, h1, h2]
  · rw [Bool.not_eq_true] at hok
    cases ho : open_file git disk reg fn with
    | ok rc =>
      obtain ⟨r1, c⟩ := rc
      simp [ho, hok, resDisk, diskSet, diskErase, h1, h2]
    | error e => simp [ho, hok, resDisk, diskSet, diskErase, h1, h2]

/-- C4 (amended).  A client write to a committed (`@`-prefixed) name is
not special-cased: it performs the ordinary working-tree atomic write,
creating or updating the disk file literally named with the leading
sigil, and touches no other disk path (in particular not the
un-prefixed path).  The committed namespace is not read-only in the
code. -/
theorem C4_committed_write_is_plain_write (git : GitF) (disk : Disk)
    (reg : Reg) (env : WriteEnv) (fn last new : String)
    (hok : env.ok = true) (_hcom : is_committed_file_path fn = true)
    (hv : writeValidOk fn = true) :
    resDisk (write_file git disk reg env fn last new) (.real (validParts fn)) =
      some ((if last = currentContentOf git disk reg fn then new
             else merge_content env.dmp (currentContentOf git disk reg fn) last new),
            env.newMtime)
    ∧ (∀ k, k ≠ DiskKey.real (validParts fn) → k ≠ DiskKey.tmp (validParts fn) →
        resDisk (write_file git disk reg env fn last new) k = disk k) := by
  have hv2 := hv
  unfold writeValidOk at hv2
  rw [Bool.and_eq_true] at hv2
  obtain ⟨h1, h2⟩ := hv2
  cases hval : normalize_and_validate_path fn with
  | error e => rw [hval] at h1; simp [Except.isOk, Except.toBool] at h1
  | ok parts =>
    have hvp : validParts fn = parts := by unfold validParts; rw [hval]
    rw [hvp]
    constructor
    · rw [write_file_eq git disk reg env fn last new parts hval
        (fun e => open_not_invalid h2 e)]
      cases ho : open_file git disk reg fn with
      | ok rc =>
        obtain ⟨r1, c⟩ := rc
        simp [currentContentOf, ho, hok, resDisk, diskSet]
      | error e =>
        simp [currentContentOf, ho, hok, resDisk, diskSet]
    · exact write_disk_frame git disk reg env fn last new parts hval
        (fun e => open_not_invalid h2 e)

/-- The git store of the committed-write scenario: the path `t.md` has
a committed blob. -/
def gC : GitF := fun p => if p = "t.md" then some "committed" else none

/-- Registry of the committed-write scenario: the committed name is
open once with the blob content cached. -/
def regC : Reg := regSet (fun _ => none) "@t.md" ⟨"committed", 1, 0⟩

/-- System of the committed-write scenario: one session holding handle
`h` on the committed name; the working tree is empty. -/
def sC5 : Sys :=
  { reg := regC, disk := fun _ => none, git := gC,
    conns := [⟨0, [("h", "@t.md")]⟩] }

/-- Counterexample to C4: the client write to the committed name
creates the file `@t.md` in the working tree (the un-prefixed path
stays untouched), so the write does perform disk I/O. -/
theorem C4_counterexample :
    sC5.disk (.real ["@t.md"]) = none
    ∧ sC5.disk (.real ["t.md"]) = none
    ∧ (applyOp sC5 (.cwrite 0 envW2 "h" "committed" "working")).disk
        (.real ["@t.md"]) = some ("working", 9)
    ∧ (applyOp sC5 (.cwrite 0 envW2 "h" "committed" "working")).disk
        (.real ["t.md"]) = none :=
  ⟨rfl, rfl, rfl, rfl⟩

/-- Witness for C4 at the concrete committed-write scenario. -/
theorem C4_witness :
    resDisk (write_file gC (fun _ => none) regC envW2 "@t.md" "committed" "working")
        (.real (validParts "@t.md")) =
      some ((if "committed" = currentContentOf gC (fun _ => none) regC "@t.md"
             then "working"
             else merge_content envW2.dmp
               (currentContentOf gC (fun _ => none) regC "@t.md")
               "committed" "working"), envW2.newMtime)
    ∧ (∀ k, k ≠ DiskKey.real (validParts "@t.md") →
        k ≠ DiskKey.tmp (validParts "@t.md") →
        resDisk (write_file gC (fun _ => none) regC envW2 "@t.md" "committed" "working") k
          = (fun _ => none : Disk) k) :=
  C4_committed_write_is_plain_write gC (fun _ => none) regC envW2
    "@t.md" "committed" "working" rfl rfl rfl

/-! ### The committed-content invariant -/

/-- The invariant claimed for the committed namespace: every cached
committed entry holds the blob at the current HEAD, or the empty
string when the path is absent in HEAD. -/
def CommittedInv (s : Sys) : Prop :=
  ∀ fn f, s.reg fn = some f → is_committed_file_path fn = true →
    f.content = (s.git (extract_git_file_path fn)).getD ""

/-- Operations that do not write through a handle bound to a committed
name and do not replay an external event on a committed name. -/
def safeForCommitted (s : Sys) : Op → Bool
  | .cwrite cid _ h _ _ =>
    (match s.conns.find? (fun c => c.cid == cid) with
     | none => true
     | some c =>
       match alLookup c.open_handles h with
       | none => true
       | some fn => !(is_committed_file_path fn))
  | .extModify fn _ _ => !(is_committed_file_path fn)
  | _ => true

/-- Closing preserves the content of every surviving entry. -/
lemma close_file_content {reg : Reg} {fn k : String} {f : File}
    (h : close_file reg fn k = some f) :
    ∃ f0, reg k = some f0 ∧ f.content = f0.content := by
  unfold close_file at h
  cases hreg : reg fn with
  | none => simp only [hreg] at h; exact ⟨f, h, rfl⟩
  | some g =>
    simp only [hreg] at h
    by_cases hc : g.ref_count - 1 ≤ 0
    · rw [if_pos hc] at h
      unfold regErase at h
      by_cases hk : k = fn
      · rw [if_pos hk] at h; cases h
      · rw [if_neg hk] at h; exact ⟨f, h, rfl⟩
    · rw [if_neg hc] at h
      unfold regSet at h
      by_cases hk : k = fn
      · rw [if_pos hk] at h
        injection h with h2
        subst hk
        exact ⟨g, hreg, by rw [← h2]⟩
      · rw [if_neg hk] at h; exact ⟨f, h, rfl⟩

/-- Session teardown (one close per live handle) preserves the content
of every surviving entry. -/
lemma foldClose_content {l : List (String × String)} {reg : Reg} {k : String}
    {f : File}
    (h : (l.foldl (fun r p => close_file r p.2) reg) k = some f) :
    ∃ f0, reg k = some f0 ∧ f.content = f0.content := by
  induction l generalizing reg with
  | nil => exact ⟨f, h, rfl⟩
  | cons p rest ih =>
    simp only [List.foldl_cons] at h
    rcases ih h with ⟨f1, hf1, hc1⟩
    rcases close_file_content hf1 with ⟨f0, hf0, hc0⟩
    exact ⟨f0, hf0, hc1.trans hc0⟩

/-- A first open of a committed name caches exactly the HEAD blob. -/
lemma open_fresh_committed_content {git : GitF} {disk : Disk} {reg : Reg}
    {fn : String} {r1 : Reg} {c : String}
    (hcom : is_committed_file_path fn = true) (hreg : reg fn = none)
    (ho : open_file git disk reg fn = .ok (r1, c)) :
    git (extract_git_file_path fn) = some c := by
  unfold open_file at ho
  rw [if_pos hcom] at ho
  cases hval : normalize_and_validate_path (extract_git_file_path fn) with
  | error e => rw [hval] at ho; cases ho
  | ok ps =>
    simp only [hval, hreg] at ho
    cases hgit : git (extract_git_file_path fn) with
    | none => simp only [hgit] at ho; cases ho
    | some g =>
      simp only [hgit] at ho
      injection ho with ho2
      injection ho2 with h3 h4
      rw [h4]

/-- C5 (amended).  The committed-content correspondence is established
by every HEAD change (unconditionally, second conjunct) and preserved
by every operation except a client write through a handle bound to a
committed name — and the external-modification replay such a write can
subsequently cause on the `@`-named disk file — which overwrite the
cached content with the written text (first conjunct, guarded by
`safeForCommitted`). -/
theorem C5_committed_content_invariant :
    (∀ s op, CommittedInv s → safeForCommitted s op = true →
      CommittedInv (applyOp s op))
    ∧ (∀ s g2, CommittedInv (applyOp s (.headChange g2))) := by
  have hHead : ∀ (s : Sys) (g2 : GitF), CommittedInv (applyOp s (.headChange g2)) := by
    intro s g2 fn f hf hcom
    simp only [applyOp] at hf ⊢
    unfold update_committed_files at hf
    cases hreg : s.reg fn with
    | none => simp only [hreg] at hf; cases hf
    | some f0 =>
      simp only [hreg, hcom, if_true] at hf
      injection hf with hf2
      rw [← hf2]
  refine ⟨?_, hHead⟩
  intro s op hInv hsafe
  cases op with
  | connect cid =>
    intro fn f hf hcom
    have hreg2 : (applyOp s (.connect cid)).reg = s.reg := by
      simp only [applyOp]; split <;> rfl
    have hgit2 : (applyOp s (.connect cid)).git = s.git := by
      simp only [applyOp]; split <;> rfl
    rw [hreg2] at hf
    rw [hgit2]
    exact hInv fn f hf hcom
  | disconnect cid =>
    intro fn f hf hcom
    cases hfind : s.conns.find? (fun c => c.cid == cid) with
    | none =>
      simp only [applyOp, hfind] at hf ⊢
      exact hInv fn f hf hcom
    | some c =>
      simp only [applyOp, hfind] at hf ⊢
      rcases foldClose_content hf with ⟨f0, hf0, hc⟩
      rw [hc]
      exact hInv fn f0 hf0 hcom
  | copen cid fn0 h0 =>
    intro fn f hf hcom
    cases hfind : s.conns.find? (fun c => c.cid == cid) with
    | none =>
      simp only [applyOp, hfind] at hf ⊢
      exact hInv fn f hf hcom
    | some c =>
      cases hlook : alLookup c.open_handles h0 with
      | some fn2 =>
        simp only [applyOp, hfind, hlook] at hf ⊢
        exact hInv fn f hf hcom
      | none =>
        cases ho : open_file s.git s.disk s.reg fn0 with
        | error e =>
          simp only [applyOp, hfind, hlook, ho] at hf ⊢
          exact hInv fn f hf hcom
        | ok rc =>
          obtain ⟨r2, c2⟩ := rc
          simp only [applyOp, hfind, hlook, ho] at hf ⊢
          by_cases hk : fn = fn0
          · subst hk
            rcases open_file_cases ho with ⟨g, hreg, hcg, hr⟩ | ⟨hreg, m, hr⟩
            · subst hr
              unfold regSet at hf
              rw [if_pos rfl] at hf
              injection hf with hf2
              rw [← hf2]
              exact hInv fn g hreg hcom
            · subst hr
              unfold regSet at hf
              rw [if_pos rfl] at hf
              injection hf with hf2
              rw [← hf2]
              rw [open_fresh_committed_content hcom hreg ho]
              rfl
          · rw [open_file_ne ho hk] at hf
            exact hInv fn f hf hcom
  | cclose cid h0 =>
    intro fn f hf hcom
    cases hfind : s.conns.find? (fun c => c.cid == cid) with
    | none =>
      simp only [applyOp, hfind] at hf ⊢
      exact hInv fn f hf hcom
    | some c =>
      cases hlook : alLookup c.open_handles h0 with
      | none =>
        simp only [applyOp, hfind, hlook] at hf ⊢
        exact hInv fn f hf hcom
      | some fn0 =>
        simp only [applyOp, hfind, hlook] at hf ⊢
        rcases close_file_content hf with ⟨f0, hf0, hc⟩
        rw [hc]
        exact hInv fn f0 hf0 hcom
  | cwrite cid env0 h0 last0 new0 =>
    intro fn f hf hcom
    cases hfind : s.conns.find? (fun c => c.cid == cid) with
    | none =>
      simp only [applyOp, hfind] at hf ⊢
      exact hInv fn f hf hcom
    | some c =>
      cases hlook : alLookup c.open_handles h0 with
      | none =>
        simp only [applyOp, hfind, hlook] at hf ⊢
        exact hInv fn f hf hcom
      | some fn0 =>
        simp only [safeForCommitted, hfind, hlook, Bool.not_eq_true'] at hsafe
        have hk : fn ≠ fn0 := by
          intro he
          rw [he] at hcom
          rw [hcom] at hsafe
          cases hsafe
        have hframe := write_reg_frame s.git s.disk s.reg env0 fn0 last0 new0 hk
        cases hw : write_file s.git s.disk s.reg env0 fn0 last0 new0 with
        | error e =>
          obtain ⟨e1, r2, d2⟩ := e
          simp only [applyOp, hfind, hlook, hw] at hf ⊢
          rw [hw] at hframe
          have hreg2 : s.reg fn = some f := by rw [← hframe]; exact hf
          exact hInv fn f hreg2 hcom
        | ok v =>
          obtain ⟨r2, d2, w2⟩ := v
          simp only [applyOp, hfind, hlook, hw] at hf ⊢
          rw [hw] at hframe
          have hreg2 : s.reg fn = some f := by rw [← hframe]; exact hf
          exact hInv fn f hreg2 hcom
  | extDelete fn0 =>
    intro fn f hf hcom
    simp only [applyOp] at hf ⊢
    unfold handle_file_deletion at hf
    cases hreg : s.reg fn0 with
    | none => simp only [hreg] at hf; exact hInv fn f hf hcom
    | some g =>
      simp only [hreg] at hf
      unfold regErase at hf
      by_cases hk : fn = fn0
      · rw [if_pos hk] at hf; cases hf
      · rw [if_neg hk] at hf; exact hInv fn f hf hcom
  | extModify fn0 content0 m0 =>
    intro fn f hf hcom
    simp only [safeForCommitted, Bool.not_eq_true'] at hsafe
    simp only [applyOp] at hf ⊢
    unfold handle_file_modification at hf
    have hdisk2 : diskSet s.disk (.real (pathComps fn0)) (content0, m0)
        (.real (pathComps fn0)) = some (content0, m0) := by
      unfold diskSet; rw [if_pos rfl]
    rw [hdisk2] at hf
    cases hreg : s.reg fn0 with
    | none => simp only [hreg] at hf; exact hInv fn f hf hcom
    | some g =>
      simp only [hreg] at hf
      by_cases hm : g.mtime = m0
      · simp only [if_pos hm] at hf
        exact hInv fn f hf hcom
      · simp only [if_neg hm] at hf
        have hk : fn ≠ fn0 := by
          intro he
          rw [he] at hcom
          rw [hcom] at hsafe
          cases hsafe
        rw [regSet_ne hk] at hf
        exact hInv fn f hf hcom
  | headChange g2 => exact hHead s g2

/-- Counterexample to C5: in the committed-write scenario the
invariant holds, yet a client `write_file` through a handle on the
committed name — one of the operations the claim says preserves the
invariant — leaves the `@t.md` entry caching the written text instead
of the HEAD blob. -/
theorem C5_counterexample :
    CommittedInv sC5
    ∧ safeForCommitted sC5 (.cwrite 0 envW2 "h" "committed" "working") = false
    ∧ ¬ CommittedInv (applyOp sC5 (.cwrite 0 envW2 "h" "committed" "working")) := by
  refine ⟨?_, rfl, ?_⟩
  · intro fn f hf hcom
    simp only [sC5, regC, regSet] at hf
    by_cases hk : fn = "@t.md"
    · rw [if_pos hk] at hf
      injection hf with hf2
      rw [← hf2, hk]
      rfl
    · rw [if_neg hk] at hf; cases hf
  · intro hInv
    exact absurd (hInv "@t.md" ⟨"working", 1, 9⟩ rfl rfl) (by decide)

/-- Witness for C5: the preservation theorem applied to a connect
operation on the initial state, and the HEAD-change conjunct applied
to the committed-write scenario. -/
theorem C5_witness :
    CommittedInv (applyOp (initSys (fun _ => none) gN) (.connect 0))
    ∧ CommittedInv (applyOp sC5 (.headChange gC)) :=
  ⟨C5_committed_content_invariant.1 (initSys (fun _ => none) gN) (.connect 0)
     (fun _ _ hf _ => Option.noConfusion hf) rfl,
   C5_committed_content_invariant.2 sC5 gC⟩

/-! ### Reference-count arithmetic -/

/-- Count after an update. -/
lemma rcAt_regSet {reg : Reg} {fn : String} {f : File} (k : String) :
    rcAt (regSet reg fn f) k = if k = fn then f.ref_count else rcAt reg k := by
  unfold rcAt regSet
  by_cases hk : k = fn <;> simp [hk]

/-- A cache update does not change any count. -/
lemma rcAt_regUpdateCM {reg : Reg} {fn c : String} {m : Nat} (k : String) :
    rcAt (regUpdateCM reg fn c m) k = rcAt reg k := by
  unfold rcAt regUpdateCM
  by_cases hk : k = fn
  · subst hk
    cases reg k <;> simp
  · simp [hk]

/-- Count after a close: decrement at the closed name, clamped by the
removal at zero. -/
lemma rcAt_close {reg : Reg} {fn : String} (k : String) :
    rcAt (close_file reg fn) k =
      if k = fn then (if rcAt reg fn - 1 ≤ 0 then 0 else rcAt reg fn - 1)
      else rcAt reg k := by
  have hErase : ∀ k2, rcAt (regErase reg fn) k2 =
      if k2 = fn then 0 else rcAt reg k2 := by
    intro k2
    unfold rcAt regErase
    by_cases hk : k2 = fn <;> simp [hk]
  unfold close_file
  cases hreg : reg fn with
  | none =>
    have hfn : rcAt reg fn = 0 := by simp [rcAt, hreg]
    simp only [hreg]
    by_cases hk : k = fn
    · subst hk
      rw [if_pos rfl, hfn]
      norm_num
    · rw [if_neg hk]
  | some f =>
    have hfn : rcAt reg fn = f.ref_count := by simp [rcAt, hreg]
    simp only [hreg]
    by_cases hc : f.ref_count - 1 ≤ 0
    · rw [if_pos hc, hErase k]
      by_cases hk : k = fn
      · rw [if_pos hk, if_pos hk, hfn, if_pos hc]
      · rw [if_neg hk, if_neg hk]
    · rw [if_neg hc, rcAt_regSet k]
      by_cases hk : k = fn
      · rw [if_pos hk, if_pos hk, hfn, if_neg hc]
      · rw [if_neg hk, if_neg hk]

/-- Count after a successful open: increment at the opened name. -/
lemma rcAt_open {git : GitF} {disk : Disk} {reg : Reg} {fn : String}
    {r1 : Reg} {c : String} (ho : open_file git disk reg fn = .ok (r1, c))
    (k : String) :
    rcAt r1 k = if k = fn then rcAt reg fn + 1 else rcAt reg k := by
  rcases open_file_cases ho with ⟨f, hreg, _, hr1⟩ | ⟨hreg, m, hr1⟩
  · subst hr1
    rw [rcAt_regSet k]
    have hfn : rcAt reg fn = f.ref_count := by simp [rcAt, hreg]
    by_cases hk : k = fn
    · rw [if_pos hk, if_pos hk, hfn]
    · rw [if_neg hk, if_neg hk]
  · subst hr1
    rw [rcAt_regSet k]
    have hfn : rcAt reg fn = 0 := by simp [rcAt, hreg]
    by_cases hk : k = fn
    · rw [if_pos hk, if_pos hk, hfn]
      norm_num
    · rw [if_neg hk, if_neg hk]

/-- Counts are non-negative under the count invariant. -/
lemma rcAt_nonneg {reg : Reg} (hrc : RefCountInv reg) (fn : String) :
    0 ≤ rcAt reg fn := by
  cases hreg : reg fn with
  | none => simp [rcAt, hreg]
  | some f =>
    have := hrc fn f hreg
    simp only [rcAt, hreg]
    omega

/-- A write, successful or failed, restores every reference count. -/
lemma write_rcAt {git : GitF} {disk : Disk} {reg : Reg} {env : WriteEnv}
    {fn last content : String} (hrc : RefCountInv reg) (k : String) :
    rcAt (resReg (write_file git disk reg env fn last content)) k = rcAt reg k := by
  unfold write_file
  cases hval : normalize_and_validate_path fn with
  | error e => rfl
  | ok parts =>
    cases ho : open_file git disk reg fn with
    | ok rc =>
      obtain ⟨r1, c⟩ := rc
      have hopen := rcAt_open ho
      have hnn := rcAt_nonneg hrc fn
      by_cases hok : env.ok = true
      · simp only [ho, hok, if_true, resReg]
        have h1 : ∀ k2, rcAt (regUpdateCM r1 fn
            (if last = c then content else merge_content env.dmp c last content)
            env.newMtime) k2 = rcAt r1 k2 := fun k2 => rcAt_regUpdateCM k2
        rw [rcAt_close k, h1 fn]
        by_cases hk : k = fn
        · subst hk
          rw [if_pos rfl, hopen k, if_pos rfl]
          split <;> omega
        · rw [if_neg hk, h1 k, hopen k, if_neg hk]
      · rw [Bool.not_eq_true] at hok
        simp only [ho, hok, Bool.false_eq_true, if_false, resReg]
        rw [if_pos trivial, rcAt_close k]
        by_cases hk : k = fn
        · subst hk
          rw [if_pos rfl, hopen k, if_pos rfl]
          split <;> omega
        · rw [if_neg hk, hopen k, if_neg hk]
    | error e =>
      cases e with
      | invalidPath e2 => simp only [ho, resReg]
      | notFound =>
        by_cases hok : env.ok = true
        · simp [ho, hok, resReg]
        · rw [Bool.not_eq_true] at hok
          simp [ho, hok, resReg]
      | gitNotFound =>
        by_cases hok : env.ok = true
        · simp [ho, hok, resReg]
        · rw [Bool.not_eq_true] at hok
          simp [ho, hok, resReg]

/-! ### Positivity of reference counts -/

/-- Removal preserves positivity. -/
lemma regErase_refCount {reg : Reg} {fn : String} (h : RefCountInv reg) :
    RefCountInv (regErase reg fn) := by
  intro k f hf
  unfold regErase at hf
  by_cases hk : k = fn
  · rw [if_pos hk] at hf; cases hf
  · rw [if_neg hk] at hf; exact h k f hf

/-- Closing preserves positivity: the entry is removed before its
count could reach zero. -/
lemma close_file_refCount {reg : Reg} {fn : String} (h : RefCountInv reg) :
    RefCountInv (close_file reg fn) := by
  intro k f hf
  unfold close_file at hf
  cases hreg : reg fn with
  | none => simp only [hreg] at hf; exact h k f hf
  | some g =>
    simp only [hreg] at hf
    by_cases hc : g.ref_count - 1 ≤ 0
    · rw [if_pos hc] at hf
      exact regErase_refCount h k f hf
    · rw [if_neg hc] at hf
      unfold regSet at hf
      by_cases hk : k = fn
      · rw [if_pos hk] at hf
        injection hf with hf2
        rw [← hf2]
        show (1 : Int) ≤ g.ref_count - 1
        omega
      · rw [if_neg hk] at hf; exact h k f hf

/-- Opening preserves positivity. -/
lemma open_file_refCount {git : GitF} {disk : Disk} {reg : Reg} {fn : String}
    {r1 : Reg} {c : String} (h : RefCountInv reg)
    (ho : open_file git disk reg fn = .ok (r1, c)) : RefCountInv r1 := by
  rcases open_file_cases ho with ⟨f, hreg, _, hr1⟩ | ⟨hreg, m, hr1⟩ <;>
    subst hr1 <;> intro k g hg <;> unfold regSet at hg
  · by_cases hk : k = fn
    · rw [if_pos hk] at hg
      injection hg with hg2
      rw [← hg2]
      have := h fn f hreg
      show (1 : Int) ≤ f.ref_count + 1
      omega
    · rw [if_neg hk] at hg; exact h k g hg
  · by_cases hk : k = fn
    · rw [if_pos hk] at hg
      injection hg with hg2
      rw [← hg2]
    · rw [if_neg hk] at hg; exact h k g hg

/-- Cache updates preserve positivity. -/
lemma regUpdateCM_refCount {reg : Reg} {fn c : String} {m : Nat}
    (h : RefCountInv reg) : RefCountInv (regUpdateCM reg fn c m) := by
  intro k g hg
  unfold regUpdateCM at hg
  by_cases hk : k = fn
  · rw [if_pos hk] at hg
    cases hreg : reg fn with
    | none => rw [hreg] at hg; cases hg
    | some f0 =>
      rw [hreg] at hg
      injection hg with hg2
      rw [← hg2]
      exact h fn f0 hreg
  · rw [if_neg hk] at hg; exact h k g hg

/-- A write preserves positivity. -/
lemma write_file_refCount {git : GitF} {disk : Disk} {reg : Reg}
    {env : WriteEnv} {fn last content : String} (h : RefCountInv reg) :
    RefCountInv (resReg (write_file git disk reg env fn last content)) := by
  unfold write_file
  cases hval : normalize_and_validate_path fn with
  | error e => exact h
  | ok parts =>
    cases ho : open_file git disk reg fn with
    | ok rc =>
      obtain ⟨r1, c⟩ := rc
      have h1 := open_file_refCount h ho
      by_cases hok : env.ok = true
      · simp only [ho, hok, if_true, resReg]
        exact close_file_refCount (regUpdateCM_refCount h1)
      · rw [Bool.not_eq_true] at hok
        simp only [ho, hok, Bool.false_eq_true, if_false, resReg]
        rw [if_pos trivial]
        exact close_file_refCount h1
    | error e =>
      cases e with
      | invalidPath e2 => simp only [ho, resReg]; exact h
      | notFound =>
        by_cases hok : env.ok = true
        · simp only [ho, hok, if_true, resReg]; exact h
        · rw [Bool.not_eq_true] at hok
          simp only [ho, hok, Bool.false_eq_true, if_false, resReg]
          exact h
      | gitNotFound =>
        by_cases hok : env.ok = true
        · simp only [ho, hok, if_true, resReg]; exact h
        · rw [Bool.not_eq_true] at hok
          simp only [ho, hok, Bool.false_eq_true, if_false, resReg]
          exact h

/-- Session teardown preserves positivity. -/
lemma foldClose_refCount {l : List (String × String)} {reg : Reg}
    (h : RefCountInv reg) :
    RefCountInv (l.foldl (fun r p => close_file r p.2) reg) := by
  induction l generalizing reg with
  | nil => exact h
  | cons p rest ih =>
    simp only [List.foldl_cons]
    exact ih (close_file_refCount h)

/-- Every operation preserves positivity of reference counts,
external deletion included. -/
lemma refCountInv_applyOp (s : Sys) (op : Op) (h : RefCountInv s.reg) :
    RefCountInv (applyOp s op).reg := by
  cases op with
  | connect cid =>
    have hreg2 : (applyOp s (.connect cid)).reg = s.reg := by
      simp only [applyOp]; split <;> rfl
    rw [hreg2]; exact h
  | disconnect cid =>
    cases hfind : s.conns.find? (fun c => c.cid == cid) with
    | none => simp only [applyOp, hfind]; exact h
    | some c => simp only [applyOp, hfind]; exact foldClose_refCount h
  | copen cid fn0 h0 =>
    cases hfind : s.conns.find? (fun c => c.cid == cid) with
    | none => simp only [applyOp, hfind]; exact h
    | some c =>
      cases hlook : alLookup c.open_handles h0 with
      | some fn2 => simp only [applyOp, hfind, hlook]; exact h
      | none =>
        cases ho : open_file s.git s.disk s.reg fn0 with
        | error e => simp only [applyOp, hfind, hlook, ho]; exact h
        | ok rc =>
          obtain ⟨r2, c2⟩ := rc
          simp only [applyOp, hfind, hlook, ho]
          exact open_file_refCount h ho
  | cclose cid h0 =>
    cases hfind : s.conns.find? (fun c => c.cid == cid) with
    | none => simp only [applyOp, hfind]; exact h
    | some c =>
      cases hlook : alLookup c.open_handles h0 with
      | none => simp only [applyOp, hfind, hlook]; exact h
      | some fn0 =>
        simp only [applyOp, hfind, hlook]
        exact close_file_refCount h
  | cwrite cid env0 h0 last0 new0 =>
    cases hfind : s.conns.find? (fun c => c.cid == cid) with
    | none => simp only [applyOp, hfind]; exact h
    | some c =>
      cases hlook : alLookup c.open_handles h0 with
      | none => simp only [applyOp, hfind, hlook]; exact h
      | some fn0 =>
        have hw2 : RefCountInv
            (resReg (write_file s.git s.disk s.reg env0 fn0 last0 new0)) :=
          write_file_refCount h
        cases hw : write_file s.git s.disk s.reg env0 fn0 last0 new0 with
        | error e =>
          obtain ⟨e1, r2, d2⟩ := e
          simp only [applyOp, hfind, hlook, hw]
          rw [hw] at hw2
          exact hw2
        | ok v =>
          obtain ⟨r2, d2, w2⟩ := v
          simp only [applyOp, hfind, hlook, hw]
          rw [hw] at hw2
          exact hw2
  | extDelete fn0 =>
    simp only [applyOp]
    unfold handle_file_deletion
    cases hreg : s.reg fn0 with
    | none => simp only [hreg]; exact h
    | some g => simp only [hreg]; exact regErase_refCount h
  | extModify fn0 content0 m0 =>
    simp only [applyOp]
    unfold handle_file_modification
    have hdisk2 : diskSet s.disk (.real (pathComps fn0)) (content0, m0)
        (.real (pathComps fn0)) = some (content0, m0) := by
      unfold diskSet; rw [if_pos rfl]
    rw [hdisk2]
    cases hreg : s.reg fn0 with
    | none => simp only [hreg]; exact h
    | some g =>
      simp only [hreg]
      by_cases hm : g.mtime = m0
      · simp only [if_pos hm]; exact h
      · simp only [if_neg hm]
        intro k f hf
        unfold regSet at hf
        by_cases hk : k = fn0
        · rw [if_pos hk] at hf
          injection hf with hf2
          rw [← hf2]
          exact h fn0 g hreg
        · rw [if_neg hk] at hf; exact h k f hf
  | headChange g2 =>
    simp only [applyOp]
    intro k f hf
    unfold update_committed_files at hf
    cases hreg : s.reg k with
    | none => simp only [hreg] at hf; cases hf
    | some f0 =>
      simp only [hreg] at hf
      by_cases hc : is_committed_file_path k = true
      · rw [if_pos hc] at hf
        injection hf with hf2
        rw [← hf2]
        exact h k f0 hreg
      · rw [if_neg hc] at hf
        injection hf with hf2
        rw [← hf2]
        exact h k f0 hreg

/-! ### Handle counting -/

/-- Unfolding of `handleCount` on a cons. -/
lemma handleCount_cons (c : Connection) (conns : List Connection) (fn : String) :
    handleCount (c :: conns) fn =
      (fileHandlesOf c fn).length + handleCount conns fn := by
  simp [handleCount]

/-- Unfolding of `handleCount` on an appended session. -/
lemma handleCount_append_single (conns : List Connection) (c : Connection)
    (fn : String) :
    handleCount (conns ++ [c]) fn =
      handleCount conns fn + (fileHandlesOf c fn).length := by
  simp [handleCount]

/-- Appending a handle to a session adds it to the index of exactly the
file it names. -/
lemma fileHandlesOf_append (c : Connection) (h0 fn0 fn : String) :
    fileHandlesOf ⟨c.cid, c.open_handles ++ [(h0, fn0)]⟩ fn =
      fileHandlesOf c fn ++ (if fn0 = fn then [h0] else []) := by
  unfold fileHandlesOf
  rw [List.filter_append, List.map_append]
  congr 1
  by_cases h : fn0 = fn
  · simp [h]
  · simp [h]

/-- Removing the handle found by a lookup removes one subscription to
the file it named and none to any other file. -/
lemma alErase_filter_length {l : List (String × String)} {h0 fn0 : String}
    (hlook : alLookup l h0 = some fn0) (fn : String) :
    ((alErase l h0).filter (fun p => p.2 == fn)).length
      + (if fn0 = fn then 1 else 0)
      = (l.filter (fun p => p.2 == fn)).length := by
  induction l with
  | nil => cases hlook
  | cons p rest ih =>
    obtain ⟨k, v⟩ := p
    unfold alLookup at hlook
    by_cases hk : h0 = k
    · rw [if_pos hk] at hlook
      injection hlook with hv
      subst hv
      unfold alErase
      rw [if_pos hk.symm, List.filter_cons]
      by_cases hfn : v = fn
      · simp [hfn]
      · simp [hfn]
    · rw [if_neg hk] at hlook
      unfold alErase
      rw [if_neg (fun he => hk he.symm), List.filter_cons, List.filter_cons]
      by_cases hfn : (v == fn) = true
      · simp only [hfn, if_true, List.length_cons]
        have := ih hlook
        omega
      · rw [Bool.not_eq_true] at hfn
        simp only [hfn, Bool.false_eq_true, if_false]
        exact ih hlook

/-- A live handle contributes at least one subscription to the file it
names. -/
lemma alLookup_filter_pos {l : List (String × String)} {h0 fn0 : String}
    (hlook : alLookup l h0 = some fn0) :
    1 ≤ (l.filter (fun p => p.2 == fn0)).length := by
  induction l with
  | nil => cases hlook
  | cons p rest ih =>
    obtain ⟨k, v⟩ := p
    unfold alLookup at hlook
    rw [List.filter_cons]
    by_cases hk : h0 = k
    · rw [if_pos hk] at hlook
      injection hlook with hv
      subst hv
      simp
    · rw [if_neg hk] at hlook
      have := ih hlook
      by_cases hfn : (v == fn0) = true
      · simp only [hfn, if_true, List.length_cons]
        omega
      · rw [Bool.not_eq_true] at hfn
        simp only [hfn, Bool.false_eq_true, if_false]
        exact this

/-- Updating a session that is not present does nothing. -/
lemma updateConns_id {conns : List Connection} {cid : Nat}
    {f : Connection → Connection} (h : ∀ c ∈ conns, c.cid ≠ cid) :
    updateConns conns cid f = conns := by
  induction conns with
  | nil => rfl
  | cons w rest ih =>
    unfold updateConns
    rw [List.map_cons, if_neg (h w (List.mem_cons_self w rest))]
    have := ih (fun c hc => h c (List.mem_cons_of_mem w hc))
    unfold updateConns at this
    rw [this]

/-- Unfolding of `updateConns` on a cons. -/
lemma updateConns_cons (w : Connection) (rest : List Connection) (cid : Nat)
    (f : Connection → Connection) :
    updateConns (w :: rest) cid f =
      (if w.cid = cid then f w else w) :: updateConns rest cid f := rfl

/-- Updating the found session changes the total subscription count by
exactly the change on that session. -/
lemma handleCount_update {conns : List Connection} {cid : Nat} {c : Connection}
    (hdis : DistinctCids conns)
    (hfind : conns.find? (fun c2 => c2.cid == cid) = some c)
    (f : Connection → Connection) (fn : String) :
    handleCount (updateConns conns cid f) fn + (fileHandlesOf c fn).length
      = handleCount conns fn + (fileHandlesOf (f c) fn).length := by
  induction conns with
  | nil => cases hfind
  | cons w rest ih =>
    rcases List.pairwise_cons.mp hdis with ⟨hw, hrest⟩
    by_cases hbeq : (w.cid == cid) = true
    · simp only [List.find?_cons, hbeq] at hfind
      injection hfind with hwc
      subst hwc
      have hcidw : w.cid = cid := by simpa using hbeq
      have hnone : ∀ c2 ∈ rest, c2.cid ≠ cid := by
        intro c2 hc2 he
        exact hw c2 hc2 (by rw [hcidw, ← he])
      rw [updateConns_cons, if_pos hcidw, updateConns_id hnone,
        handleCount_cons, handleCount_cons]
      omega
    · rw [Bool.not_eq_true] at hbeq
      simp only [List.find?_cons, hbeq] at hfind
      have hcidw : ¬ w.cid = cid := by
        intro he
        rw [he] at hbeq
        simp at hbeq
      rw [updateConns_cons, if_neg hcidw, handleCount_cons, handleCount_cons]
      have := ih hrest hfind
      omega

/-- Removing the found session removes exactly its subscriptions from
the total. -/
lemma handleCount_filter_out {conns : List Connection} {cid : Nat}
    {c : Connection} (hdis : DistinctCids conns)
    (hfind : conns.find? (fun c2 => c2.cid == cid) = some c) (fn : String) :
    handleCount (conns.filter (fun c2 => !(c2.cid == cid))) fn
      + (fileHandlesOf c fn).length = handleCount conns fn := by
  induction conns with
  | nil => cases hfind
  | cons w rest ih =>
    rcases List.pairwise_cons.mp hdis with ⟨hw, hrest⟩
    by_cases hbeq : (w.cid == cid) = true
    · simp only [List.find?_cons, hbeq] at hfind
      injection hfind with hwc
      subst hwc
      have hcidw : w.cid = cid := by simpa using hbeq
      have hnone : ∀ c2 ∈ rest, (!(c2.cid == cid)) = true := by
        intro c2 hc2
        have h2 : c2.cid ≠ cid := by
          intro he
          exact hw c2 hc2 (by rw [hcidw, ← he])
        simp [h2]
      rw [List.filter_cons, if_neg (by simp [hbeq]), List.filter_eq_self.mpr hnone,
        handleCount_cons]
      omega
    · rw [Bool.not_eq_true] at hbeq
      simp only [List.find?_cons, hbeq] at hfind
      rw [List.filter_cons, if_pos (by simp [hbeq]), handleCount_cons,
        handleCount_cons]
      have := ih hrest hfind
      omega

/-- The subscription index of a session has one entry per matching
handle pair. -/
lemma fileHandlesOf_length (c : Connection) (fn : String) :
    (fileHandlesOf c fn).length =
      (c.open_handles.filter (fun p => p.2 == fn)).length := by
  simp [fileHandlesOf]

/-- One session's subscriptions are part of the total. -/
lemma handleCount_ge_mem {conns : List Connection} {c : Connection}
    (hc : c ∈ conns) (fn : String) :
    (fileHandlesOf c fn).length ≤ handleCount conns fn := by
  unfold handleCount
  exact List.single_le_sum (fun x _ => Nat.zero_le x) _
    (List.mem_map_of_mem (fun c2 => (fileHandlesOf c2 fn).length) hc)

/-- Closing once per handle pair lowers the count at each name by the
number of pairs naming it, clamped at zero. -/
lemma foldClose_rcAt (l : List (String × String)) (reg : Reg) (k : String)
    (h0 : 0 ≤ rcAt reg k) :
    rcAt (l.foldl (fun r p => close_file r p.2) reg) k =
      (((rcAt reg k).toNat - (l.filter (fun p => p.2 == k)).length : Nat) : Int) := by
  induction l generalizing reg with
  | nil =>
    simp only [List.foldl_nil, List.filter_nil, List.length_nil, Nat.sub_zero]
    exact (Int.toNat_of_nonneg h0).symm
  | cons p rest ih =>
    simp only [List.foldl_cons]
    have h1 : 0 ≤ rcAt (close_file reg p.2) k := by
      rw [rcAt_close k]
      by_cases hk : k = p.2
      · rw [if_pos hk]; split <;> omega
      · rw [if_neg hk]; exact h0
    rw [ih (close_file reg p.2) h1, List.filter_cons, rcAt_close k]
    by_cases hk : k = p.2
    · rw [hk] at h0 ⊢
      simp only [beq_self_eq_true, eq_self_iff_true, if_true, List.length_cons]
      split <;> omega
    · have hfn : (p.2 == k) = false := by
        simp only [beq_eq_false_iff_ne, ne_eq]
        exact fun he => hk he.symm
      simp only [hfn, Bool.false_eq_true, if_false, if_neg hk]

/-- Updating sessions in place preserves identity distinctness when
the update preserves identities. -/
lemma distinct_updateConns {conns : List Connection} {cid : Nat}
    {f : Connection → Connection} (hf : ∀ c, (f c).cid = c.cid)
    (h : DistinctCids conns) : DistinctCids (updateConns conns cid f) := by
  unfold updateConns DistinctCids
  rw [List.pairwise_map]
  refine h.imp ?_
  intro a b hab
  by_cases ha : a.cid = cid
  · by_cases hb : b.cid = cid
    · exact absurd (ha.trans hb.symm) hab
    · rw [if_pos ha, if_neg hb, hf a]
      exact hab
  · by_cases hb : b.cid = cid
    · rw [if_neg ha, if_pos hb, hf b]
      exact hab
    · rw [if_neg ha, if_neg hb]
      exact hab

/-- Every operation preserves distinctness of session identities. -/
lemma distinct_applyOp (s : Sys) (op : Op) (h : DistinctCids s.conns) :
    DistinctCids (applyOp s op).conns := by
  cases op with
  | connect cid =>
    simp only [applyOp]
    by_cases hany : (s.conns.any (fun c => c.cid == cid)) = true
    · rw [if_pos hany]; exact h
    · rw [if_neg hany]
      show DistinctCids (s.conns ++ [⟨cid, []⟩])
      unfold DistinctCids
      rw [List.pairwise_append]
      refine ⟨h, List.pairwise_singleton _ _, ?_⟩
      intro a ha b hb
      rw [List.mem_singleton] at hb
      subst hb
      intro he
      apply hany
      rw [List.any_eq_true]
      exact ⟨a, ha, by simp [he]⟩
  | disconnect cid =>
    cases hfind : s.conns.find? (fun c2 => c2.cid == cid) with
    | none => simp only [applyOp, hfind]; exact h
    | some c =>
      simp only [applyOp, hfind]
      exact List.Pairwise.sublist (List.filter_sublist _) h
  | copen cid fn0 h0 =>
    cases hfind : s.conns.find? (fun c2 => c2.cid == cid) with
    | none => simp only [applyOp, hfind]; exact h
    | some c =>
      cases hlook : alLookup c.open_handles h0 with
      | some fn2 => simp only [applyOp, hfind, hlook]; exact h
      | none =>
        cases ho : open_file s.git s.disk s.reg fn0 with
        | error e => simp only [applyOp, hfind, hlook, ho]; exact h
        | ok rc =>
          obtain ⟨r2, c2⟩ := rc
          simp only [applyOp, hfind, hlook, ho]
          exact distinct_updateConns (fun c3 => rfl) h
  | cclose cid h0 =>
    cases hfind : s.conns.find? (fun c2 => c2.cid == cid) with
    | none => simp only [applyOp, hfind]; exact h
    | some c =>
      cases hlook : alLookup c.open_handles h0 with
      | none => simp only [applyOp, hfind, hlook]; exact h
      | some fn0 =>
        simp only [applyOp, hfind, hlook]
        exact distinct_updateConns (fun c3 => rfl) h
  | cwrite cid env0 h0 last0 new0 =>
    cases hfind : s.conns.find? (fun c2 => c2.cid == cid) with
    | none => simp only [applyOp, hfind]; exact h
    | some c =>
      cases hlook : alLookup c.open_handles h0 with
      | none => simp only [applyOp, hfind, hlook]; exact h
      | some fn0 =>
        cases hw : write_file s.git s.disk s.reg env0 fn0 last0 new0 with
        | error e =>
          obtain ⟨e1, r2, d2⟩ := e
          simp only [applyOp, hfind, hlook, hw]
          exact h
        | ok v =>
          obtain ⟨r2, d2, w2⟩ := v
          simp only [applyOp, hfind, hlook, hw]
          exact h
  | extDelete fn0 => simp only [applyOp]; exact h
  | extModify fn0 content0 m0 => simp only [applyOp]; exact h
  | headChange g2 => simp only [applyOp]; exact h

/-- A HEAD change touches no reference count. -/
lemma rcAt_update_committed (git : GitF) (reg : Reg) (k : String) :
    rcAt (update_committed_files git reg) k = rcAt reg k := by
  unfold rcAt update_committed_files
  cases hreg : reg k with
  | none => simp [hreg]
  | some f => by_cases hc : is_committed_file_path k = true <;> simp [hreg, hc]

/-- Every operation except external deletion preserves the exact
handle/count correspondence. -/
lemma countEq_applyOp (s : Sys) (op : Op) (hdis : DistinctCids s.conns)
    (hrc : RefCountInv s.reg) (hcnt : CountEq s)
    (hnd : isExtDelete op = false) : CountEq (applyOp s op) := by
  cases op with
  | connect cid =>
    intro fn
    simp only [applyOp]
    by_cases hany : (s.conns.any (fun c => c.cid == cid)) = true
    · rw [if_pos hany]; exact hcnt fn
    · rw [if_neg hany]
      show rcAt s.reg fn = ((handleCount (s.conns ++ [⟨cid, []⟩]) fn : Nat) : Int)
      rw [handleCount_append_single]
      have h2 : fileHandlesOf ⟨cid, []⟩ fn = [] := rfl
      rw [h2, List.length_nil, Nat.add_zero]
      exact hcnt fn
  | disconnect cid =>
    intro fn
    cases hfind : s.conns.find? (fun c2 => c2.cid == cid) with
    | none => simp only [applyOp, hfind]; exact hcnt fn
    | some c =>
      simp only [applyOp, hfind]
      have h0 : 0 ≤ rcAt s.reg fn := rcAt_nonneg hrc fn
      show rcAt (c.open_handles.foldl (fun r p => close_file r p.2) s.reg) fn = _
      rw [foldClose_rcAt c.open_handles s.reg fn h0]
      have e2 := handleCount_filter_out hdis hfind fn
      have e3 := hcnt fn
      have e4 := fileHandlesOf_length c fn
      omega
  | copen cid fn0 h0 =>
    cases hfind : s.conns.find? (fun c2 => c2.cid == cid) with
    | none => intro fn; simp only [applyOp, hfind]; exact hcnt fn
    | some c =>
      cases hlook : alLookup c.open_handles h0 with
      | some fn2 => intro fn; simp only [applyOp, hfind, hlook]; exact hcnt fn
      | none =>
        cases ho : open_file s.git s.disk s.reg fn0 with
        | error e => intro fn; simp only [applyOp, hfind, hlook, ho]; exact hcnt fn
        | ok rc =>
          obtain ⟨r2, c2⟩ := rc
          intro fn
          simp only [applyOp, hfind, hlook, ho]
          have e1 := rcAt_open ho fn
          have e2 := handleCount_update hdis hfind
            (fun c3 => { c3 with open_handles := c3.open_handles ++ [(h0, fn0)] }) fn
          have e3 := fileHandlesOf_append c h0 fn0 fn
          rw [e3, List.length_append] at e2
          have e4 := hcnt fn
          have e5 := hcnt fn0
          rw [e1]
          by_cases hk : fn = fn0
          · subst hk
            simp only [eq_self_iff_true, if_true, List.length_singleton] at e2 ⊢
            omega
          · simp only [if_neg hk]
            have h6 : (if fn0 = fn then [h0] else []) = [] :=
              if_neg (fun he => hk he.symm)
            rw [h6, List.length_nil] at e2
            omega
  | cclose cid h0 =>
    cases hfind : s.conns.find? (fun c2 => c2.cid == cid) with
    | none => intro fn; simp only [applyOp, hfind]; exact hcnt fn
    | some c =>
      cases hlook : alLookup c.open_handles h0 with
      | none => intro fn; simp only [applyOp, hfind, hlook]; exact hcnt fn
      | some fn0 =>
        intro fn
        simp only [applyOp, hfind, hlook]
        rw [rcAt_close fn]
        have e2 := handleCount_update hdis hfind
          (fun c3 => { c3 with open_handles := alErase c3.open_handles h0 }) fn
        have e3 : (fileHandlesOf
              ({ c with open_handles := alErase c.open_handles h0 } : Connection)
              fn).length + (if fn0 = fn then 1 else 0)
            = (fileHandlesOf c fn).length := by
          rw [fileHandlesOf_length, fileHandlesOf_length]
          exact alErase_filter_length hlook fn
        have e4 := hcnt fn
        have e5 := hcnt fn0
        have e6 : 1 ≤ handleCount s.conns fn0 := by
          have h7 := alLookup_filter_pos hlook
          rw [← fileHandlesOf_length] at h7
          exact le_trans h7
            (handleCount_ge_mem (List.mem_of_find?_eq_some hfind) fn0)
        by_cases hk : fn = fn0
        · subst hk
          simp only [eq_self_iff_true, if_true] at e3 ⊢
          split <;> omega
        · simp only [if_neg hk]
          have h8 : (if fn0 = fn then 1 else 0) = 0 :=
            if_neg (fun he => hk he.symm)
          rw [h8, Nat.add_zero] at e3
          omega
  | cwrite cid env0 h0 last0 new0 =>
    cases hfind : s.conns.find? (fun c2 => c2.cid == cid) with
    | none => intro fn; simp only [applyOp, hfind]; exact hcnt fn
    | some c =>
      cases hlook : alLookup c.open_handles h0 with
      | none => intro fn; simp only [applyOp, hfind, hlook]; exact hcnt fn
      | some fn0 =>
        intro fn
        have hwr : rcAt (resReg (write_file s.git s.disk s.reg env0 fn0 last0 new0)) fn
            = rcAt s.reg fn := write_rcAt hrc fn
        cases hw : write_file s.git s.disk s.reg env0 fn0 last0 new0 with
        | error e =>
          obtain ⟨e1, r2, d2⟩ := e
          simp only [applyOp, hfind, hlook, hw]
          rw [hw] at hwr
          rw [show rcAt r2 fn = rcAt s.reg fn from hwr]
          exact hcnt fn
        | ok v =>
          obtain ⟨r2, d2, w2⟩ := v
          simp only [applyOp, hfind, hlook, hw]
          rw [hw] at hwr
          rw [show rcAt r2 fn = rcAt s.reg fn from hwr]
          exact hcnt fn
  | extDelete fn0 => cases hnd
  | extModify fn0 content0 m0 =>
    intro fn
    simp only [applyOp]
    unfold handle_file_modification
    have hdisk2 : diskSet s.disk (.real (pathComps fn0)) (content0, m0)
        (.real (pathComps fn0)) = some (content0, m0) := by
      unfold diskSet; rw [if_pos rfl]
    rw [hdisk2]
    cases hreg : s.reg fn0 with
    | none => simp only [hreg]; exact hcnt fn
    | some g =>
      simp only [hreg]
      by_cases hm : g.mtime = m0
      · simp only [if_pos hm]; exact hcnt fn
      · simp only [if_neg hm]
        show rcAt (regSet s.reg fn0 ⟨content0, g.ref_count, m0⟩) fn = _
        rw [rcAt_regSet fn]
        by_cases hk : fn = fn0
        · subst hk
          rw [if_pos rfl]
          have : rcAt s.reg fn = g.ref_count := by simp [rcAt, hreg]
          rw [← this]
          exact hcnt fn
        · rw [if_neg hk]
          exact hcnt fn
  | headChange g2 =>
    intro fn
    simp only [applyOp]
    rw [rcAt_update_committed g2 s.reg fn]
    exact hcnt fn

/-- C3 (amended).  First conjunct: in every reachable state every
registry entry has a strictly positive reference count (this also
holds across external deletions).  Second conjunct: every operation
other than the Change Detector's deletion handling preserves the full
invariant — distinct sessions, positive counts, and each live handle
contributing exactly one unit to the count of the entry it names.
Third conjunct: `close_file` decrements and removes an entry exactly
when its count reaches zero.  External deletion is excluded because it
evicts the entry while the sessions' handles survive
(`C3_counterexample`). -/
theorem C3_refcount_and_handle_invariant :
    (∀ (d : Disk) (g : GitF) (ops : List Op), RefCountInv (runOps d g ops).reg)
    ∧ (∀ s op, SysInv s → isExtDelete op = false → SysInv (applyOp s op))
    ∧ (∀ (reg : Reg) (fn : String) (f : File), reg fn = some f →
        close_file reg fn fn =
          (if f.ref_count - 1 ≤ 0 then none
           else some { f with ref_count := f.ref_count - 1 })) := by
  refine ⟨?_, ?_, ?_⟩
  · intro d g ops
    have hgen : ∀ (ops2 : List Op) (s : Sys), RefCountInv s.reg →
        RefCountInv (ops2.foldl applyOp s).reg := by
      intro ops2
      induction ops2 with
      | nil => intro s h; exact h
      | cons op rest ih =>
        intro s h
        simp only [List.foldl_cons]
        exact ih (applyOp s op) (refCountInv_applyOp s op h)
    exact hgen ops (initSys d g) (fun fn f hf => Option.noConfusion hf)
  · intro s op hInv hnd
    obtain ⟨hdis, hrc, hcnt⟩ := hInv
    exact ⟨distinct_applyOp s op hdis, refCountInv_applyOp s op hrc,
      countEq_applyOp s op hdis hrc hcnt hnd⟩
  · intro reg fn f hreg
    unfold close_file
    simp only [hreg]
    by_cases hc : f.ref_count - 1 ≤ 0
    · rw [if_pos hc, if_pos hc]
      unfold regErase
      rw [if_pos rfl]
    · rw [if_neg hc, if_neg hc]
      unfold regSet
      rw [if_pos rfl]

/-- Working tree of the deletion scenario: one file on disk. -/
def dA : Disk := fun k => if k = DiskKey.real ["a.txt"] then some ("x", 5) else none

/-- Counterexample to C3: after connecting and opening a handle the
full invariant holds, but the Change Detector's handling of external
deletion evicts the registry entry while the session's handle
survives, so the handle no longer contributes to any reference count. -/
theorem C3_counterexample :
    SysInv (runOps dA gN [.connect 0, .copen 0 "a.txt" "h"])
    ∧ ¬ SysInv (runOps dA gN
        [.connect 0, .copen 0 "a.txt" "h", .extDelete "a.txt"]) := by
  constructor
  · have hs2 : runOps dA gN [.connect 0, .copen 0 "a.txt" "h"] =
        { reg := regSet (fun _ => none) "a.txt" ⟨"x", 1, 5⟩, disk := dA,
          git := gN, conns := [⟨0, [("h", "a.txt")]⟩] } := rfl
    rw [hs2]
    refine ⟨List.pairwise_singleton _ _, ?_, ?_⟩
    · intro fn f hf
      simp only [regSet] at hf
      by_cases hk : fn = "a.txt"
      · rw [if_pos hk] at hf
        injection hf with hf2
        rw [← hf2]
      · rw [if_neg hk] at hf
        cases hf
    · intro fn
      by_cases hk : fn = "a.txt"
      · subst hk
        rfl
      · show rcAt (regSet (fun _ => none) "a.txt" ⟨"x", 1, 5⟩) fn = _
        rw [rcAt_regSet fn, if_neg hk]
        have h2 : handleCount [⟨0, [("h", "a.txt")]⟩] fn = 0 := by
          have h3 : (("a.txt" : String) == fn) = false := by
            simp only [beq_eq_false_iff_ne, ne_eq]
            exact fun he => hk he.symm
          simp [handleCount, fileHandlesOf, h3]
        rw [h2]
        rfl
  · intro hInv
    obtain ⟨_, _, hcnt⟩ := hInv
    have hx := hcnt "a.txt"
    have h0 : rcAt (runOps dA gN
        [.connect 0, .copen 0 "a.txt" "h", .extDelete "a.txt"]).reg "a.txt" = 0 := rfl
    have h1 : handleCount (runOps dA gN
        [.connect 0, .copen 0 "a.txt" "h", .extDelete "a.txt"]).conns "a.txt" = 1 := rfl
    rw [h0, h1] at hx
    exact absurd hx (by decide)

/-- Witness for C3: the preservation conjunct applied to a connect on
the initial state, and the exact-removal conjunct applied to an entry
with count two. -/
theorem C3_witness :
    SysInv (applyOp (initSys dA gN) (.connect 0))
    ∧ close_file (regSet (fun _ => none) "a" ⟨"x", 2, 0⟩) "a" "a" =
        (if (2 : Int) - 1 ≤ 0 then none else some ⟨"x", 2 - 1, 0⟩) :=
  ⟨C3_refcount_and_handle_invariant.2.1 (initSys dA gN) (.connect 0)
     ⟨List.Pairwise.nil, fun _ _ hf => Option.noConfusion hf, fun _ => rfl⟩ rfl,
   C3_refcount_and_handle_invariant.2.2
     (regSet (fun _ => none) "a" ⟨"x", 2, 0⟩) "a" ⟨"x", 2, 0⟩ rfl⟩
